import Mathlib

/-!
Verification of the sego segmenter (pickjunk/sego).

The Go sources under verification are `segmenter.go` (atom tokenizer,
dictionary loader, Viterbi lattice search) and the output utilities
(`SegmentsToString`, `SegmentsSpread`, `Join`, ...).  The repository's
`Dictionary`, `Token` and `Segment` type definitions live in files that are
not part of the provided sources; those are modelled from the specification
(spec.md sections 3 and 4.C) and marked as such in their doc comments.

Conventions of the embedding:
  - a Go byte slice is a `List Nat`;
  - `float32` path distances are modelled as exact rationals `ℚ`;
  - loops become folds or fuel-based recursion (the fuel is always a
    provably sufficient bound, so the translation is total and executable);
  - Go `nil` pointers become `Option`.
-/

/-- Accessor for a Go byte slice (`Text` in the Go sources). -/
abbrev Text := List Nat

mutual

/-- Modelled from the spec (section 3): the repository's `Token` type
(its defining file is not among the provided sources).  Fields in order:
`text`, `frequency`, `distance`, `pos`, `segments`, `synonyms`. -/
inductive Token : Type where
  | mk : List Text → Nat → ℚ → String → List Segment → List Token → Token

/-- Modelled from the spec (section 3): the repository's `Segment` type
(its defining file is not among the provided sources): `start` and `end`
byte offsets plus the token. -/
inductive Segment : Type where
  | mk : Nat → Nat → Token → Segment

end

def Token.text : Token → List Text
  | .mk t _ _ _ _ _ => t

def Token.frequency : Token → Nat
  | .mk _ f _ _ _ _ => f

def Token.distance : Token → ℚ
  | .mk _ _ d _ _ _ => d

def Token.pos : Token → String
  | .mk _ _ _ p _ _ => p

def Token.segments : Token → List Segment
  | .mk _ _ _ _ s _ => s

def Token.synonyms : Token → List Token
  | .mk _ _ _ _ _ s => s

instance : Inhabited Token := ⟨.mk [] 0 0 "" [] []⟩

/-- Accessor for the `start` field of a `Segment`. -/
def Segment.start : Segment → Nat
  | .mk s _ _ => s

/-- Accessor for the `end` field of a `Segment` (`end` is a Lean keyword). -/
def Segment.endPos : Segment → Nat
  | .mk _ e _ => e

/-- Accessor for the `token` field of a `Segment`. -/
def Segment.token : Segment → Token
  | .mk _ _ t => t

instance : Inhabited Segment := ⟨.mk 0 0 default⟩

/-- Modelled from the spec (section 3): the repository's `Dictionary`
(its defining file is not among the provided sources): a store of tokens
plus the aggregate counter `maxTokenLength`. -/
structure Dictionary where
  tokens : List Token
  maxTokenLength : Nat

/-- Modelled from the spec (section 4.C): `lookupTokens` returns all stored
tokens whose atom sequence is a prefix of the query, ordered by increasing
atom count.  Tokens are non-empty (spec section 3), hence lengths 1 to
`query.length` are enumerated. -/
def Dictionary.lookupTokens (d : Dictionary) (query : List Text) : List Token :=
  (List.range query.length).flatMap fun k =>
    d.tokens.filter fun t => t.text.length == k + 1 && List.isPrefixOf t.text query

/-- Go source `segmenter.go`: the per-position lattice record `jumper`. -/
structure jumper where
  minDistance : ℚ
  token : Option Token

instance : Inhabited jumper := ⟨⟨0, none⟩⟩

/-- Go source `segmenter.go`, function `minInt`. -/
def minInt (a b : Nat) : Nat :=
  if a > b then b else a

/-- Go source `segmenter.go`, function `maxInt`. -/
def maxInt (a b : Nat) : Nat :=
  if a > b then a else b

/-- Go source `segmenter.go`, function `updateJumper`: relax the jumper with a
new candidate; an untouched jumper is recognised by `minDistance == 0`. -/
def updateJumper (j : jumper) (baseDistance : ℚ) (token : Token) : jumper :=
  if j.minDistance = 0 ∨ j.minDistance > baseDistance + token.distance then
    { minDistance := baseDistance + token.distance, token := some token }
  else j

/-- Go source `segmenter.go` line 304: the synthetic one-atom token added when
the current atom starts no one-atom dictionary token. -/
def fallbackToken (a : Text) : Token :=
  .mk [a] 1 32 "x" [] []

/-- Dictionary query made at lattice position `current`
(Go: `text[current:minInt(current+maxTokenLength, len(text))]`). -/
def lookupAt (d : Dictionary) (text : List Text) (current : Nat) : List Token :=
  d.lookupTokens
    (List.take (minInt (current + d.maxTokenLength) text.length - current)
      (List.drop current text))

/-- Relaxation of one candidate token (the body of the loop of Go lines
294-299): update the jumper at the token's end position, unless the match
spans the whole input in search mode. -/
def relaxOne (searchMode : Bool) (n current : Nat) (baseDistance : ℚ)
    (js : List jumper) (tk : Token) : List jumper :=
  if ¬searchMode ∨ current ≠ 0 ∨ current + tk.text.length - 1 ≠ n - 1 then
    js.set (current + tk.text.length - 1)
      (updateJumper (js.getD (current + tk.text.length - 1) default) baseDistance tk)
  else js

/-- Inner relax loop of `segmentWords` (Go lines 294-299). -/
def relaxTokens (searchMode : Bool) (n current : Nat) (baseDistance : ℚ)
    (tks : List Token) (jumpers : List jumper) : List jumper :=
  tks.foldl (relaxOne searchMode n current baseDistance) jumpers

/-- Base distance read at the start of one iteration of the forward loop
(Go lines 281-287): zero at the first position, otherwise the previous
jumper's minimal distance. -/
def baseDistanceAt (jumpers : List jumper) (current : Nat) : ℚ :=
  if current = 0 then 0 else (jumpers.getD (current - 1) default).minDistance

/-- Fallback condition of Go line 302: no match was returned, or the shortest
returned match is longer than one atom. -/
def fallbackAt (d : Dictionary) (text : List Text) (current : Nat) : Prop :=
  (lookupAt d text current).length = 0 ∨
    ((lookupAt d text current).headD default).text.length > 1

instance (d : Dictionary) (text : List Text) (current : Nat) :
    Decidable (fallbackAt d text current) := by
  unfold fallbackAt; infer_instance

/-- Body of one iteration of the forward lattice loop of `segmentWords`
(Go lines 279-306): relax all candidate tokens, then possibly the synthetic
one-atom fallback token. -/
def segmentStep (d : Dictionary) (text : List Text) (searchMode : Bool)
    (jumpers : List jumper) (current : Nat) : List jumper :=
  if fallbackAt d text current then
    (relaxTokens searchMode text.length current (baseDistanceAt jumpers current)
        (lookupAt d text current) jumpers).set current
      (updateJumper
        ((relaxTokens searchMode text.length current (baseDistanceAt jumpers current)
            (lookupAt d text current) jumpers).getD current default)
        (baseDistanceAt jumpers current) (fallbackToken (text.getD current default)))
  else
    relaxTokens searchMode text.length current (baseDistanceAt jumpers current)
      (lookupAt d text current) jumpers

/-- Forward lattice loop of `segmentWords`: fold the step over all positions,
starting from the all-zero (untouched) jumper array. -/
def runJumpers (d : Dictionary) (text : List Text) (searchMode : Bool) : List jumper :=
  (List.range text.length).foldl (segmentStep d text searchMode)
    (List.replicate text.length default)

/-- Backward reconstruction scan of `segmentWords` (Go lines 309-323), emitting
tokens right to left.  The second argument is one past the current scan index;
`none` marks the two situations in which the Go code would fail (a nil token:
nil-pointer dereference; an empty token text: non-termination).  The fuel
argument is always instantiated so that it cannot run out (each step consumes
at least one position). -/
def backScanF (jumpers : List jumper) : Nat → Nat → Option (List Token)
  | 0, idx1 => if idx1 = 0 then some [] else none
  | _ + 1, 0 => some []
  | fuel + 1, idx + 1 =>
    match (jumpers.getD idx default).token with
    | none => none
    | some tk =>
      if tk.text.length = 0 then none
      else (backScanF jumpers fuel (idx + 1 - tk.text.length)).map (tk :: ·)

/-- Backward reconstruction scan from one past the last index. -/
def backScan (jumpers : List jumper) (idx1 : Nat) : Option (List Token) :=
  backScanF jumpers idx1 idx1

/-- Tokens of the output segments in left-to-right order (the Go code emits
right to left into a pre-counted array, which reverses the scan order). -/
def segmentTokens (jumpers : List jumper) (n : Nat) : List Token :=
  ((backScan jumpers n).getD []).reverse

/-- Go source (output utilities): `textSliceByteLength`. -/
def textSliceByteLength (text : List Text) : Nat :=
  (text.map List.length).sum

/-- Byte-span assignment of `segmentWords` (Go lines 326-331): walking left to
right, each segment starts at the running byte cursor and ends after its
token's total atom byte length. -/
def assignSpans : List Token → Nat → List Segment
  | [], _ => []
  | tk :: rest, bytePosition =>
    let e := bytePosition + textSliceByteLength tk.text
    Segment.mk bytePosition e tk :: assignSpans rest e

/-- Go source `segmenter.go`, `segmentWords` up to (and excluding) the final
stop-word filter: forward lattice loop, backward reconstruction, byte spans. -/
def segmentWordsAll (d : Dictionary) (text : List Text) (searchMode : Bool) :
    List Segment :=
  if searchMode ∧ text.length = 1 then []
  else assignSpans (segmentTokens (runJumpers d text searchMode) text.length) 0

/-- Go source `segmenter.go`, `segmentWords`: the full function, including the
final `__STOP__` filter. -/
def segmentWords (d : Dictionary) (text : List Text) (searchMode : Bool) :
    List Segment :=
  (segmentWordsAll d text searchMode).filter fun s => s.token.pos != "__STOP__"

/-- Unicode code point returned by Go's `utf8.DecodeRune` on malformed input. -/
def runeError : Nat := 0xFFFD

/-- Model of Go's `utf8.DecodeRune` on a byte slice: returns the decoded code
point and its byte size.  Malformed or truncated sequences (including overlong
encodings, surrogates and out-of-range values) yield `(runeError, 1)`; the
empty slice yields `(runeError, 0)`. -/
def utf8DecodeRune : List Nat → Nat × Nat
  | [] => (runeError, 0)
  | b0 :: rest =>
    if b0 < 0x80 then (b0, 1)
    else if b0 < 0xC2 then (runeError, 1)
    else if b0 ≤ 0xDF then
      match rest with
      | b1 :: _ =>
        if 0x80 ≤ b1 ∧ b1 ≤ 0xBF then ((b0 - 0xC0) * 0x40 + (b1 - 0x80), 2)
        else (runeError, 1)
      | [] => (runeError, 1)
    else if b0 ≤ 0xEF then
      let lo1 := if b0 = 0xE0 then 0xA0 else 0x80
      let hi1 := if b0 = 0xED then 0x9F else 0xBF
      match rest with
      | b1 :: b2 :: _ =>
        if lo1 ≤ b1 ∧ b1 ≤ hi1 ∧ 0x80 ≤ b2 ∧ b2 ≤ 0xBF then
          ((b0 - 0xE0) * 0x1000 + (b1 - 0x80) * 0x40 + (b2 - 0x80), 3)
        else (runeError, 1)
      | _ => (runeError, 1)
    else if b0 ≤ 0xF4 then
      let lo1 := if b0 = 0xF0 then 0x90 else 0x80
      let hi1 := if b0 = 0xF4 then 0x8F else 0xBF
      match rest with
      | b1 :: b2 :: b3 :: _ =>
        if lo1 ≤ b1 ∧ b1 ≤ hi1 ∧ 0x80 ≤ b2 ∧ b2 ≤ 0xBF ∧ 0x80 ≤ b3 ∧ b3 ≤ 0xBF then
          ((b0 - 0xF0) * 0x40000 + (b1 - 0x80) * 0x1000 + (b2 - 0x80) * 0x40
             + (b3 - 0x80), 4)
        else (runeError, 1)
      | _ => (runeError, 1)
    else (runeError, 1)

/-- Unicode letter ranges (category L) below U+0800.  The scanner consults
`unicode.IsLetter` only behind the `size <= 2` guard, so only code points
below U+0800 (and `runeError`, which is no letter) are ever queried. -/
def letterRanges : List (Nat × Nat) :=
  [(0x41, 0x5A), (0x61, 0x7A), (0xAA, 0xAA), (0xB5, 0xB5), (0xBA, 0xBA),
   (0xC0, 0xD6), (0xD8, 0xF6), (0xF8, 0x2C1), (0x2C6, 0x2D1), (0x2E0, 0x2E4),
   (0x2EC, 0x2EC), (0x2EE, 0x2EE), (0x370, 0x374), (0x376, 0x377),
   (0x37A, 0x37D), (0x37F, 0x37F), (0x386, 0x386), (0x388, 0x38A),
   (0x38C, 0x38C), (0x38E, 0x3A1), (0x3A3, 0x3F5), (0x3F7, 0x481),
   (0x48A, 0x52F), (0x531, 0x556), (0x559, 0x559), (0x560, 0x588),
   (0x5D0, 0x5EA), (0x5EF, 0x5F2), (0x620, 0x64A), (0x66E, 0x66F),
   (0x671, 0x6D3), (0x6D5, 0x6D5), (0x6E5, 0x6E6), (0x6EE, 0x6EF),
   (0x6FA, 0x6FC), (0x6FF, 0x6FF), (0x710, 0x710), (0x712, 0x72F),
   (0x74D, 0x7A5), (0x7B1, 0x7B1), (0x7CA, 0x7EA), (0x7F4, 0x7F5),
   (0x7FA, 0x7FA)]

/-- Model of Go's `unicode.IsLetter`, restricted to the reachable domain. -/
def isUnicodeLetter (r : Nat) : Bool :=
  letterRanges.any fun p => p.1 ≤ r ∧ r ≤ p.2

/-- Unicode number ranges (category N) below U+0800. -/
def numberRanges : List (Nat × Nat) :=
  [(0x30, 0x39), (0xB2, 0xB3), (0xB9, 0xB9), (0xBC, 0xBE), (0x660, 0x669),
   (0x6F0, 0x6F9), (0x7C0, 0x7C9)]

/-- Model of Go's `unicode.IsNumber`, restricted to the reachable domain. -/
def isUnicodeNumber (r : Nat) : Bool :=
  numberRanges.any fun p => p.1 ≤ r ∧ r ≤ p.2

/-- Word-type constants of the scanner (Go `wordAlpha`). -/
def wordAlpha : Nat := 0

/-- Word-type constant `wordNumber`. -/
def wordNumber : Nat := 1

/-- Word-type constant `wordOther`. -/
def wordOther : Nat := 2

/-- Go source `segmenter.go`, function `toLower`: lowercase the bytes in the
ASCII range `A..Z` only. -/
def toLower (text : List Nat) : List Nat :=
  text.map fun t => if 65 ≤ t ∧ t ≤ 90 then t - 65 + 97 else t

/-- Word emitted by `splitTextToWords` at a boundary: the slice
`text[preWordStart:current]`, lowercased if it is an alpha run. -/
def emittedWord (text : List Nat) (preWordType preWordStart current : Nat) : Text :=
  if preWordType = wordAlpha then
    toLower (List.take (current - preWordStart) (List.drop preWordStart text))
  else List.take (current - preWordStart) (List.drop preWordStart text)

/-- Emission step of `splitTextToWords` (identical at the two Go call sites):
append the emitted word to the output unless it equals the single space `" "`. -/
def emitWord (text : List Nat) (preWordType preWordStart current : Nat)
    (output : List Text) : List Text :=
  if emittedWord text preWordType preWordStart current ≠ [32] then
    output ++ [emittedWord text preWordType preWordStart current]
  else output

/-- Classification of the scalar decoded at offset `current` (the `switch` of
Go lines 381-387): alpha or number only behind the `size <= 2` guard. -/
def classifyAt (text : List Nat) (current : Nat) : Nat :=
  if (utf8DecodeRune (List.drop current text)).2 ≤ 2 ∧
      isUnicodeLetter (utf8DecodeRune (List.drop current text)).1 then wordAlpha
  else if (utf8DecodeRune (List.drop current text)).2 ≤ 2 ∧
      isUnicodeNumber (utf8DecodeRune (List.drop current text)).1 then wordNumber
  else wordOther

/-- Size of the scalar decoded at offset `current` of the scanner. -/
def sizeAt (text : List Nat) (current : Nat) : Nat :=
  (utf8DecodeRune (List.drop current text)).2

/-- Main loop of `splitTextToWords` (Go lines 378-405), with explicit scanner
state `(current, preWordType, preWordStart, output)` and a fuel argument; each
iteration consumes at least one byte, so fuel `text.length` never runs out.
Returns the final state. -/
def splitLoopF (text : List Nat) :
    Nat → Nat → Nat → Nat → List Text → (List Text × Nat × Nat × Nat)
  | 0, current, preWordType, preWordStart, output =>
      (output, preWordType, preWordStart, current)
  | fuel + 1, current, preWordType, preWordStart, output =>
    if current < text.length then
      if classifyAt text current ≠ preWordType ∨ classifyAt text current = wordOther then
        splitLoopF text fuel (current + sizeAt text current) (classifyAt text current)
          current
          (if current ≠ 0 then emitWord text preWordType preWordStart current output
           else output)
      else
        splitLoopF text fuel (current + sizeAt text current) preWordType preWordStart
          output
    else (output, preWordType, preWordStart, current)

/-- Go source `segmenter.go`, function `splitTextToWords`: split a byte slice
into atoms (the spec also calls this `splitTextToAtoms`). -/
def splitTextToWords (text : List Nat) : List Text :=
  match splitLoopF text text.length 0 wordAlpha 0 [] with
  | (output, preWordType, preWordStart, current) =>
    if current ≠ 0 then emitWord text preWordType preWordStart current output
    else output

/-- Go source `segmenter.go`: the `Segmenter` struct. -/
structure Segmenter where
  dict : Dictionary

/-- Go source `segmenter.go`, method `internalSegment`. -/
def internalSegment (d : Dictionary) (bytes : List Nat) (searchMode : Bool) :
    List Segment :=
  if bytes.length = 0 then []
  else segmentWords d (splitTextToWords bytes) searchMode

/-- Go source `segmenter.go`, method `Segment`. -/
def Segmenter.Segment (seg : Segmenter) (bytes : List Nat) : List Segment :=
  internalSegment seg.dict bytes false

/-! Basic evaluation helpers. -/

theorem default_jumper : (default : jumper) = ⟨0, none⟩ := rfl

/-! Claim C3: tie-breaking in the relax rule. -/

/-- Claim C3 (as stated): in the relax rule, an equal-distance candidate
replaces the previously stored one, so ties would go to the last candidate
relaxed.  This is false: the `>` comparison is strict, so on equality the
jumper is left unchanged.  The counterexample relaxes a jumper holding
distance `37` with a candidate of equal new distance `5 + 32` and observes
that the stored token is still the first one. -/
theorem claim_c3_counterexample :
    ¬ (∀ (j : jumper) (b : ℚ) (tk : Token), j.token.isSome →
        j.minDistance = b + tk.distance → (updateJumper j b tk).token = some tk) := by
  intro h
  have h37 : updateJumper ⟨37, some (fallbackToken [97])⟩ 5
      (Token.mk [[98]] 1 32 "y" [] []) = ⟨37, some (fallbackToken [97])⟩ := by
    norm_num [updateJumper, Token.distance]
  have := h ⟨37, some (fallbackToken [97])⟩ 5 (Token.mk [[98]] 1 32 "y" [] [])
    (by simp) (by norm_num [Token.distance])
  rw [h37] at this
  simp [fallbackToken] at this

/-- Claim C3 (amended): in the relax rule, when a new candidate yields a path
distance equal to the (non-sentinel) stored distance, the jumper is left
unchanged: ties go to the first candidate relaxed, not the last. -/
theorem updateJumper_tie_keeps_first (j : jumper) (b : ℚ) (tk : Token)
    (h0 : j.minDistance ≠ 0) (heq : j.minDistance = b + tk.distance) :
    updateJumper j b tk = j := by
  unfold updateJumper
  rw [if_neg]
  push_neg
  exact ⟨h0, by rw [heq]⟩

/-- Witness for `updateJumper_tie_keeps_first` at a concrete jumper and
candidate. -/
theorem updateJumper_tie_keeps_first_witness :
    (37 : ℚ) ≠ 0 ∧ (37 : ℚ) = 5 + (Token.mk [[98]] 1 32 "y" [] []).distance ∧
    updateJumper ⟨37, some (fallbackToken [97])⟩ 5 (Token.mk [[98]] 1 32 "y" [] [])
      = ⟨37, some (fallbackToken [97])⟩ :=
  ⟨by norm_num, by norm_num [Token.distance],
    updateJumper_tie_keeps_first _ _ _ (by norm_num) (by norm_num [Token.distance])⟩

/-! Claim C8: whitespace at atomization time. -/

/-- ASCII whitespace bytes. -/
def isWhitespaceByte (b : Nat) : Bool :=
  b = 32 || b = 9 || b = 10 || b = 11 || b = 12 || b = 13

/-- Claim C8 (as stated): no atom returned by `splitTextToWords` consists of
whitespace.  This is false: only the exact single-space atom `" "` is dropped;
a tab byte (9) is classified `Other` and survives as its own atom. -/
theorem claim_c8_counterexample :
    ¬ (∀ (text : List Nat), ∀ w ∈ splitTextToWords text,
        ¬ (w ≠ [] ∧ w.all isWhitespaceByte = true)) := by
  intro h
  exact h [9] [9] (by decide) ⟨by decide, by decide⟩

/-- Membership in the output of `emitWord` comes from the input accumulator or
is a word different from the single space. -/
theorem emitWord_mem (text : List Nat) (pt ps c : Nat) (out : List Text) (w : Text)
    (h : w ∈ emitWord text pt ps c out) : w ∈ out ∨ w ≠ [32] := by
  unfold emitWord at h
  split at h
  · rcases List.mem_append.mp h with h' | h'
    · exact Or.inl h'
    · rename_i hne
      rw [List.mem_singleton.mp h']
      exact Or.inr hne
  · exact Or.inl h

/-- Loop invariant for `splitLoopF`: every atom of the final output is an atom
of the initial accumulator or differs from the single space. -/
theorem splitLoopF_mem (text : List Nat) (w : Text) :
    ∀ (fuel current pt ps : Nat) (out : List Text),
      w ∈ (splitLoopF text fuel current pt ps out).1 → w ∈ out ∨ w ≠ [32] := by
  intro fuel
  induction fuel with
  | zero => intro current pt ps out h; exact Or.inl h
  | succ fuel ih =>
    intro current pt ps out h
    rw [splitLoopF] at h
    split at h
    · split at h
      · rcases ih _ _ _ _ h with h' | h'
        · split at h'
          · rcases emitWord_mem _ _ _ _ _ _ h' with h'' | h''
            · exact Or.inl h''
            · exact Or.inr h''
          · exact Or.inl h'
        · exact Or.inr h'
      · exact ih _ _ _ _ h
    · exact Or.inl h

/-- Claim C8 (amended): no atom returned by `splitTextToWords` equals the
single space `" "`; atoms made of other whitespace (tab, newline, multi-byte
spaces) are kept.  Equivalently, exactly the single-space atoms are discarded
at atomization time. -/
theorem splitTextToWords_no_space (text : List Nat) :
    ∀ w ∈ splitTextToWords text, w ≠ [32] := by
  intro w hw
  unfold splitTextToWords at hw
  rcases hsplit : splitLoopF text text.length 0 wordAlpha 0 [] with ⟨out, pt, ps, cur⟩
  rw [hsplit] at hw
  simp only at hw
  have hbase : w ∈ out → w ≠ [32] := by
    intro h'
    have h2 := splitLoopF_mem text w text.length 0 wordAlpha 0 []
    rw [hsplit] at h2
    rcases h2 h' with h'' | h''
    · exact absurd h'' (List.not_mem_nil w)
    · exact h''
  split at hw
  · rcases emitWord_mem _ _ _ _ _ _ hw with h' | h'
    · exact hbase h'
    · exact h'
  · exact hbase hw

/-- Witness for `splitTextToWords_no_space` at a concrete input containing a
space: `"a b"` atomizes to `a`, `b` and neither atom is `" "`. -/
theorem splitTextToWords_no_space_witness :
    [97] ∈ splitTextToWords [97, 32, 98] ∧ [97] ≠ [32] :=
  ⟨by decide, splitTextToWords_no_space [97, 32, 98] [97] (by decide)⟩

/-! Claim C9: a concrete atomization. -/

/-- Byte sequence of the literal string `"Je56 su4904is 1enchanté000才11"`. -/
def c9Input : List Nat :=
  [74, 101, 53, 54, 32, 115, 117, 52, 57, 48, 52, 105, 115, 32, 49, 101, 110,
   99, 104, 97, 110, 116, 195, 169, 48, 48, 48, 230, 137, 141, 49, 49]

/-- Claim C9: `splitTextToWords` on `"Je56 su4904is 1enchanté000才11"` returns
exactly the atoms `je`, `56`, `su`, `4904`, `is`, `1`, `enchanté`, `000`,
`才`, `11` in that order (as byte sequences; `é` is `195,169`, `才` is
`230,137,141`, and only the ASCII letters are lowercased). -/
theorem splitTextToWords_c9 :
    splitTextToWords c9Input =
      [[106, 101], [53, 54], [115, 117], [52, 57, 48, 52], [105, 115], [49],
       [101, 110, 99, 104, 97, 110, 116, 195, 169], [48, 48, 48],
       [230, 137, 141], [49, 49]] := by decide

/-! Dictionary file line parsing (Go `LoadDictionary`, lines 72-123). -/

/-- Strings are byte-exact in the loader; they are modelled as `List Char`. -/
abbrev Str := List Char

/-- Go constant `minTokenFrequency`. -/
def minTokenFrequency : Int := 2

/-- Model of Go `strings.Trim(s, " ")`: remove leading and trailing spaces. -/
def trimSpaces (s : Str) : Str :=
  ((s.dropWhile (· = ' ')).reverse.dropWhile (· = ' ')).reverse

/-- Model of Go `strings.Split` with a one-character separator. -/
def splitOnChar (sep : Char) : Str → List Str
  | [] => [[]]
  | c :: rest =>
    if c = sep then [] :: splitOnChar sep rest
    else
      match splitOnChar sep rest with
      | [] => [[c]]
      | w :: ws => (c :: w) :: ws

/-- Model of Go `strings.Join(xs, " ")`. -/
def joinWithSpace : List Str → Str
  | [] => []
  | [x] => x
  | x :: xs => x ++ ' ' :: joinWithSpace xs

/-- Model of the Go regular expression test `^\d+$`. -/
def isDigitStr (s : Str) : Bool :=
  !s.isEmpty && s.all fun c => '0' ≤ c && c ≤ '9'

/-- Model of Go `strings.Replace(s, "__VERTICAL_BAR__", "|", -1)`: replace
every (leftmost-first, non-overlapping) occurrence of the escape sequence. -/
def decodeVbar : Str → Str
  | '_' :: '_' :: 'V' :: 'E' :: 'R' :: 'T' :: 'I' :: 'C' :: 'A' :: 'L' ::
      '_' :: 'B' :: 'A' :: 'R' :: '_' :: '_' :: rest => '|' :: decodeVbar rest
  | c :: rest => c :: decodeVbar rest
  | [] => []

/-- Digit-run value used by the `strconv.Atoi` model. -/
def digitsToNat (s : Str) : Option Nat :=
  if !s.isEmpty && s.all (fun c => '0' ≤ c && c ≤ '9') then
    some (s.foldl (fun acc c => acc * 10 + (c.toNat - 48)) 0)
  else none

/-- Model of Go `strconv.Atoi` (64-bit range overflow is not modelled; all
frequencies of interest are small). -/
def atoi (s : Str) : Option Int :=
  match s with
  | '+' :: t => (digitsToNat t).map fun n => (n : Int)
  | '-' :: t => (digitsToNat t).map fun n => -(n : Int)
  | _ => (digitsToNat s).map fun n => (n : Int)

/-- Space-separated slices of a (trimmed) dictionary entry
(Go: `strings.Split(strings.Trim(piece, " "), " ")`). -/
def pieceSlices (piece : Str) : List Str :=
  splitOnChar ' ' (trimSpaces piece)

/-- Result of parsing one entry of a dictionary line: an accepted
`(text, frequency, pos)` triple, a skipped entry (Go `continue`: unparsable or
too-small frequency), or an aborted line (Go `break`: too few slices or empty
text). -/
inductive PieceResult where
  | ok (text : Str) (frequency : Int) (pos : Str)
  | skip
  | abort
deriving DecidableEq

/-- Go source `segmenter.go` lines 75-123: parse one `|`-separated entry of a
dictionary line.  The last space-separated slice decides the format: an
all-digit run means `[text] [frequency]`, anything else means
`[text] [frequency] [pos]`.  The `__VERTICAL_BAR__` decoding (line 96) is
applied only on the `[text] [frequency] [pos]` branch. -/
def parsePiece (piece : Str) : PieceResult :=
  if isDigitStr ((pieceSlices piece).getD ((pieceSlices piece).length - 1) []) then
    if (pieceSlices piece).length < 2 then .abort
    else if joinWithSpace ((pieceSlices piece).take ((pieceSlices piece).length - 1))
        = [] then .abort
    else
      match atoi ((pieceSlices piece).getD ((pieceSlices piece).length - 1) []) with
      | none => .skip
      | some f =>
        if f < minTokenFrequency then .skip
        else .ok (joinWithSpace ((pieceSlices piece).take ((pieceSlices piece).length - 1)))
          f []
  else
    if (pieceSlices piece).length < 3 then .abort
    else if decodeVbar
        (joinWithSpace ((pieceSlices piece).take ((pieceSlices piece).length - 2)))
        = [] then .abort
    else
      match atoi ((pieceSlices piece).getD ((pieceSlices piece).length - 2) []) with
      | none => .skip
      | some f =>
        if f < minTokenFrequency then .skip
        else .ok
          (decodeVbar
            (joinWithSpace ((pieceSlices piece).take ((pieceSlices piece).length - 2))))
          f ((pieceSlices piece).getD ((pieceSlices piece).length - 1) [])

/-- Entries accepted from a list of `|`-separated pieces: a skipped piece is
passed over (Go `continue`), an aborted piece ends the line (Go `break`). -/
def parsePieces : List Str → List (Str × Int × Str)
  | [] => []
  | p :: rest =>
    match parsePiece p with
    | .ok t f po => (t, f, po) :: parsePieces rest
    | .skip => parsePieces rest
    | .abort => []

/-- Entries accepted by the loader from one dictionary line. -/
def parseLine (line : Str) : List (Str × Int × Str) :=
  parsePieces (splitOnChar '|' (trimSpaces line))

/-- Whether an entry carries a POS field: its last space-separated slice is
not an all-digit run. -/
def pieceHasPos (piece : Str) : Bool :=
  !(isDigitStr ((pieceSlices piece).getD ((pieceSlices piece).length - 1) []))

/-- Raw (undecoded) `<text>` part of a dictionary entry: the join of all
space-separated slices except the trailing one or two. -/
def pieceRawText (piece : Str) : Str :=
  if pieceHasPos piece then
    joinWithSpace ((pieceSlices piece).take ((pieceSlices piece).length - 2))
  else joinWithSpace ((pieceSlices piece).take ((pieceSlices piece).length - 1))

/-- Claim C6 (as stated): for every accepted dictionary entry, with or without
a POS field, every `__VERTICAL_BAR__` in its `<text>` is decoded to `|` in the
stored text.  This is false: the decoding (Go line 96) sits only on the POS
branch; the entry `"a__VERTICAL_BAR__b 5"` (no POS) keeps the escape sequence
verbatim in its stored text. -/
theorem claim_c6_counterexample :
    ¬ (∀ (piece t : Str) (f : Int) (p : Str), parsePiece piece = .ok t f p →
        t = decodeVbar (pieceRawText piece)) := by
  intro h
  have h1 := h ("a__VERTICAL_BAR__b 5".toList) ("a__VERTICAL_BAR__b".toList) 5 []
    (by decide)
  rw [show decodeVbar (pieceRawText ("a__VERTICAL_BAR__b 5".toList)) = "a|b".toList
    from by decide] at h1
  exact absurd h1 (by decide)

/-- Claim C6 (amended): the `__VERTICAL_BAR__` decoding is applied to the
stored text exactly when the entry carries a POS field; an entry without POS
stores the raw join of its text slices verbatim. -/
theorem parsePiece_vbar_decode (piece t : Str) (f : Int) (p : Str)
    (h : parsePiece piece = .ok t f p) :
    t = if pieceHasPos piece then decodeVbar (pieceRawText piece)
        else pieceRawText piece := by
  unfold parsePiece at h
  split at h
  · rename_i hdig
    split at h
    · exact absurd h (by simp)
    · split at h
      · exact absurd h (by simp)
      · split at h
        · exact absurd h (by simp)
        · split at h
          · exact absurd h (by simp)
          · rcases h with ⟨⟩
            simp only [pieceHasPos, pieceRawText, hdig, Bool.not_true,
              Bool.false_eq_true, if_false, Bool.not_false, if_true]
  · rename_i hdig
    split at h
    · exact absurd h (by simp)
    · split at h
      · exact absurd h (by simp)
      · split at h
        · exact absurd h (by simp)
        · split at h
          · exact absurd h (by simp)
          · rcases h with ⟨⟩
            simp only [pieceHasPos, pieceRawText, hdig, Bool.not_true,
              Bool.false_eq_true, if_false, Bool.not_false, if_true]

/-- Witness for `parsePiece_vbar_decode`: the entry
`"x__VERTICAL_BAR__y 5 n"` carries a POS field and stores the decoded text
`"x|y"`. -/
theorem parsePiece_vbar_decode_witness :
    parsePiece ("x__VERTICAL_BAR__y 5 n".toList)
        = PieceResult.ok ("x|y".toList) (5 : Int) ("n".toList) ∧
      "x|y".toList
        = if pieceHasPos ("x__VERTICAL_BAR__y 5 n".toList) then
            decodeVbar (pieceRawText ("x__VERTICAL_BAR__y 5 n".toList))
          else pieceRawText ("x__VERTICAL_BAR__y 5 n".toList) :=
  ⟨by decide,
    parsePiece_vbar_decode ("x__VERTICAL_BAR__y 5 n".toList) ("x|y".toList) (5 : Int)
      ("n".toList) (by decide)⟩

/-! Claim C7: the synonym Cartesian expansion of `LoadDictionary`
(Go lines 158-218). -/

/-- Extension of one accumulated partial token `a` by one sub-segment
(the body of the inner loop, Go lines 170-195): either one product per
synonym of the sub-segment's token, or the sub-segment's token itself.  The
new tokens copy `a`'s `frequency`, `distance` and `pos`. -/
def cartesianExtend (seg : Segment) (st : Bool × List Token) (a : Token) :
    Bool × List Token :=
  if seg.token.synonyms.length > 0 then
    (true,
      st.2 ++ seg.token.synonyms.map fun b =>
        Token.mk (a.text ++ b.text) a.frequency a.distance a.pos [] [])
  else
    (st.1,
      st.2 ++ [Token.mk (a.text ++ seg.token.text) a.frequency a.distance a.pos [] []])

/-- Per-sub-segment step of the Cartesian expansion (Go lines 167-198): build
the new accumulated list from scratch, threading the `hasSynonyms` flag. -/
def cartesianStep (acc : Bool × List Token) (seg : Segment) : Bool × List Token :=
  acc.2.foldl (cartesianExtend seg) (acc.1, [])

/-- Synonym Cartesian product of a token (Go lines 158-198): fold over the
token's sub-segments starting from the seed token carrying the source token's
`frequency`, `distance` and `pos` and empty text.  The boolean is the
`hasSynonyms` flag deciding whether the product is kept and inserted. -/
def cartesianSynonyms (token : Token) : Bool × List Token :=
  token.segments.foldl cartesianStep
    (false, [Token.mk [] token.frequency token.distance token.pos [] []])

/-- Every token produced by one extension step either was already accumulated
or copies the fields of the partial token it extends. -/
theorem cartesianExtend_mem (seg : Segment) (st : Bool × List Token) (a t : Token)
    (h : t ∈ (cartesianExtend seg st a).2) :
    t ∈ st.2 ∨ (t.frequency = a.frequency ∧ t.distance = a.distance ∧ t.pos = a.pos) := by
  unfold cartesianExtend at h
  split at h
  · simp only at h
    rcases List.mem_append.mp h with h' | h'
    · exact Or.inl h'
    · rcases List.mem_map.mp h' with ⟨b, _, rfl⟩
      exact Or.inr ⟨rfl, rfl, rfl⟩
  · simp only at h
    rcases List.mem_append.mp h with h' | h'
    · exact Or.inl h'
    · rw [List.mem_singleton.mp h']
      exact Or.inr ⟨rfl, rfl, rfl⟩

/-- Fold invariant for one Cartesian step: field inheritance propagates. -/
theorem cartesianFold_fields (seg : Segment) (fr : Nat) (di : ℚ) (po : String) :
    ∀ (l : List Token) (st : Bool × List Token),
      (∀ a ∈ l, a.frequency = fr ∧ a.distance = di ∧ a.pos = po) →
      (∀ t ∈ st.2, t.frequency = fr ∧ t.distance = di ∧ t.pos = po) →
      ∀ t ∈ (l.foldl (cartesianExtend seg) st).2,
        t.frequency = fr ∧ t.distance = di ∧ t.pos = po := by
  intro l
  induction l with
  | nil => intro st _ hst t ht; exact hst t ht
  | cons a l ih =>
    intro st hl hst t ht
    refine ih (cartesianExtend seg st a) (fun x hx => hl x (List.mem_cons_of_mem a hx))
      ?_ t ht
    intro x hx
    rcases cartesianExtend_mem seg st a x hx with h' | h'
    · exact hst x h'
    · have ha := hl a (List.mem_cons_self a l)
      exact ⟨h'.1.trans ha.1, h'.2.1.trans ha.2.1, h'.2.2.trans ha.2.2⟩

/-- Claim C7: every synonym-product token built by the Cartesian expansion
step of `LoadDictionary` (in particular every one inserted into the
dictionary) carries exactly the source token's `frequency`, `distance` and
`pos`; its distance is the precomputed distance of the source token, not one
recomputed from any post-insertion total frequency. -/
theorem cartesianSynonyms_inherits (token : Token) :
    ∀ t ∈ (cartesianSynonyms token).2,
      t.frequency = token.frequency ∧ t.distance = token.distance
        ∧ t.pos = token.pos := by
  unfold cartesianSynonyms
  generalize hacc : (false, [Token.mk [] token.frequency token.distance token.pos [] []])
    = acc
  have hinit : ∀ t ∈ acc.2, t.frequency = token.frequency
      ∧ t.distance = token.distance ∧ t.pos = token.pos := by
    intro t ht
    rw [← hacc] at ht
    rw [List.mem_singleton.mp ht]
    exact ⟨rfl, rfl, rfl⟩
  clear hacc
  induction token.segments generalizing acc with
  | nil => exact hinit
  | cons seg rest ih =>
    intro t ht
    refine ih (cartesianStep acc seg) ?_ t ht
    intro x hx
    exact cartesianFold_fields seg token.frequency token.distance token.pos acc.2
      (acc.1, []) hinit (by intro y hy; exact absurd hy (List.not_mem_nil y)) x hx

/-- Concrete tokens exercising the Cartesian expansion: a source token whose
single sub-segment's token has one synonym. -/
def c7syn : Token := Token.mk [[99]] 2 9 "z" [] []

/-- Sub-segment token of the concrete C7 scenario. -/
def c7sub : Token := Token.mk [[98]] 3 1 "m" [] [c7syn]

/-- Source token of the concrete C7 scenario. -/
def c7src : Token := Token.mk [[97]] 7 5 "n" [Segment.mk 0 1 c7sub] []

/-- Witness for `cartesianSynonyms_inherits`: the concrete product token of
`c7src` inherits frequency 7, distance 5 and pos `"n"` from the source. -/
theorem cartesianSynonyms_inherits_witness :
    Token.mk [[99]] 7 5 "n" [] [] ∈ (cartesianSynonyms c7src).2 ∧
      ((Token.mk [[99]] 7 5 "n" [] []).frequency = c7src.frequency ∧
        (Token.mk [[99]] 7 5 "n" [] []).distance = c7src.distance ∧
        (Token.mk [[99]] 7 5 "n" [] []).pos = c7src.pos) :=
  ⟨by rw [show (cartesianSynonyms c7src).2 = [Token.mk [[99]] 7 5 "n" [] []] from rfl]
      exact List.mem_singleton.mpr rfl,
    cartesianSynonyms_inherits c7src (Token.mk [[99]] 7 5 "n" [] [])
      (by rw [show (cartesianSynonyms c7src).2 = [Token.mk [[99]] 7 5 "n" [] []] from rfl]
          exact List.mem_singleton.mpr rfl)⟩

/-! Claim C10: the spread operation `SegmentsSpread` (output utilities). -/

/-- Go source, `SegmentsSpread`, with a fuel argument bounding the recursion
depth into stored sub-segments (the inductive `Token` is finite, so fuel
`sizeOf segs` never runs out): for each segment in order, recursively spread
its token's stored sub-segments (copied verbatim), then emit one segment per
synonym sharing the segment's own span, then the segment itself. -/
def segmentsSpreadF : Nat → List Segment → List Segment
  | 0, _ => []
  | fuel + 1, segs =>
    segs.flatMap fun s =>
      segmentsSpreadF fuel s.token.segments ++
        (s.token.synonyms.map fun t => Segment.mk s.start s.endPos t) ++ [s]

mutual

/-- Structural size of a token (counting nested stored sub-segments), used as
recursion fuel for the spread. -/
def tokenSize : Token → Nat
  | .mk _ _ _ _ segs _ => 1 + segsSize segs

/-- Structural size of a segment list. -/
def segsSize : List Segment → Nat
  | [] => 0
  | .mk _ _ t :: rest => 1 + tokenSize t + segsSize rest

end

/-- Go source, `SegmentsSpread`. -/
def SegmentsSpread (segs : List Segment) : List Segment :=
  segmentsSpreadF (segsSize segs) segs

/-- Transitively stored sub-segment: `x` is one of `t.segments`, or a stored
sub-segment of the token of one of `t.segments`.  Such an `x` is a verbatim
copy produced at dictionary-load time, byte offsets included. -/
inductive StoredSub : Segment → Token → Prop where
  | here {x : Segment} {t : Token} : x ∈ t.segments → StoredSub x t
  | there {x y : Segment} {t : Token} :
      y ∈ t.segments → StoredSub x y.token → StoredSub x t

/-- Fuel-generic membership characterisation of the spread output. -/
theorem segmentsSpreadF_mem :
    ∀ (fuel : Nat) (segs : List Segment) (x : Segment),
      x ∈ segmentsSpreadF fuel segs →
      x ∈ segs ∨ (∃ s ∈ segs, StoredSub x s.token) ∨
        (∃ e, (e ∈ segs ∨ ∃ s ∈ segs, StoredSub e s.token) ∧
          ∃ t ∈ e.token.synonyms, x = Segment.mk e.start e.endPos t) := by
  intro fuel
  induction fuel with
  | zero => intro segs x h; exact absurd h (List.not_mem_nil x)
  | succ fuel ih =>
    intro segs x h
    rw [segmentsSpreadF] at h
    rcases List.mem_flatMap.mp h with ⟨s, hs, hx⟩
    rcases List.mem_append.mp hx with hx' | hx'
    · rcases List.mem_append.mp hx' with hx'' | hx''
      · rcases ih s.token.segments x hx'' with h1 | h2 | h3
        · exact Or.inr (Or.inl ⟨s, hs, StoredSub.here h1⟩)
        · rcases h2 with ⟨s', hs', hsub⟩
          exact Or.inr (Or.inl ⟨s, hs, StoredSub.there hs' hsub⟩)
        · rcases h3 with ⟨e, he, t, ht, rfl⟩
          refine Or.inr (Or.inr ⟨e, Or.inr ⟨s, hs, ?_⟩, t, ht, rfl⟩)
          rcases he with he' | ⟨s', hs', hsub⟩
          · exact StoredSub.here he'
          · exact StoredSub.there hs' hsub
      · rcases List.mem_map.mp hx'' with ⟨t, ht, rfl⟩
        exact Or.inr (Or.inr ⟨s, Or.inl hs, t, ht, rfl⟩)
    · rw [List.mem_singleton.mp hx']
      exact Or.inl hs

/-- Claim C10: every segment emitted by `SegmentsSpread` is an input segment,
a verbatim copy of a (transitively) stored sub-segment — keeping the byte
offsets into the parent token's own text computed at dictionary-load time,
not re-based to the enclosing segment's span — or a synonym segment, and only
the synonym segments are given the enclosing segment's `start` and `end`. -/
theorem SegmentsSpread_frame (segs : List Segment) (x : Segment)
    (h : x ∈ SegmentsSpread segs) :
    x ∈ segs ∨ (∃ s ∈ segs, StoredSub x s.token) ∨
      (∃ e, (e ∈ segs ∨ ∃ s ∈ segs, StoredSub e s.token) ∧
        ∃ t ∈ e.token.synonyms, x = Segment.mk e.start e.endPos t) :=
  segmentsSpreadF_mem (segsSize segs) segs x h

/-- Leaf token of the concrete C10 scenario. -/
def c10leaf : Token := Token.mk [[97]] 2 1 "a" [] []

/-- Stored sub-segment of the concrete C10 scenario, with its load-time
offsets `0` and `1` (different from the enclosing segment's span `10`-`20`). -/
def c10sub : Segment := Segment.mk 0 1 c10leaf

/-- Synonym token of the concrete C10 scenario. -/
def c10syn : Token := Token.mk [[100]] 2 1 "s" [] []

/-- Parent token of the concrete C10 scenario. -/
def c10tok : Token := Token.mk [[97], [98]] 2 1 "t" [c10sub] [c10syn]

/-- Enclosing segment of the concrete C10 scenario. -/
def c10seg : Segment := Segment.mk 10 20 c10tok

/-- Witness for `SegmentsSpread_frame`: spreading `[c10seg]` emits the stored
sub-segment `c10sub` verbatim (span `0`-`1`, not re-based to `10`-`20`). -/
theorem SegmentsSpread_frame_witness :
    c10sub ∈ SegmentsSpread [c10seg] ∧
      (c10sub ∈ [c10seg] ∨ (∃ s ∈ [c10seg], StoredSub c10sub s.token) ∨
        (∃ e, (e ∈ [c10seg] ∨ ∃ s ∈ [c10seg], StoredSub e s.token) ∧
          ∃ t ∈ e.token.synonyms, c10sub = Segment.mk e.start e.endPos t)) :=
  ⟨by rw [show SegmentsSpread [c10seg]
        = [c10sub, Segment.mk 10 20 c10syn, c10seg] from rfl]
      exact List.mem_cons_self _ _,
    SegmentsSpread_frame [c10seg] c10sub
      (by rw [show SegmentsSpread [c10seg]
            = [c10sub, Segment.mk 10 20 c10syn, c10seg] from rfl]
          exact List.mem_cons_self _ _)⟩

/-! Lattice candidates and path costs. -/

/-- Candidate token relaxed at start position `c` during iteration `c` of the
forward loop: either a dictionary match at `c` that is not a whole-span match
skipped in search mode, or the synthetic fallback token when the fallback
condition holds at `c`. -/
def isCandidate (d : Dictionary) (text : List Text) (sm : Bool) (c : Nat)
    (tk : Token) : Prop :=
  c < text.length ∧
    ((tk ∈ lookupAt d text c ∧
        ¬(sm = true ∧ c = 0 ∧ c + tk.text.length - 1 = text.length - 1)) ∨
      (tk = fallbackToken (text.getD c default) ∧ fallbackAt d text c))

/-- Path costs of the lattice: `PathTo d text sm m q` holds when the atoms
`0..m-1` can be segmented into consecutive relaxed candidate tokens of total
distance `q`.  The minimum of these costs is the shortest-path value. -/
inductive PathTo (d : Dictionary) (text : List Text) (sm : Bool) : Nat → ℚ → Prop where
  | nil : PathTo d text sm 0 0
  | cons {c : Nat} {q : ℚ} {tk : Token} : PathTo d text sm c q →
      isCandidate d text sm c tk →
      PathTo d text sm (c + tk.text.length) (q + tk.distance)

/-- Arithmetic form of `minInt`. -/
theorem minInt_eq (a b : Nat) : minInt a b = min a b := by
  unfold minInt; split <;> omega

/-- Every token returned by a lattice lookup is stored, non-empty, fits before
the end of the input, and its text is exactly the matched atom slice. -/
theorem lookupAt_spec (d : Dictionary) (text : List Text) (c : Nat) (tk : Token)
    (h : tk ∈ lookupAt d text c) :
    tk ∈ d.tokens ∧ 1 ≤ tk.text.length ∧ c + tk.text.length ≤ text.length ∧
      tk.text = List.take tk.text.length (List.drop c text) := by
  unfold lookupAt Dictionary.lookupTokens at h
  rcases List.mem_flatMap.mp h with ⟨k, hk, hmem⟩
  rw [List.mem_range, List.length_take, List.length_drop, minInt_eq] at hk
  have hpred := List.of_mem_filter hmem
  have htk := List.mem_of_mem_filter hmem
  rw [Bool.and_eq_true, beq_iff_eq] at hpred
  obtain ⟨hlen, hpre⟩ := hpred
  rw [List.isPrefixOf_iff_prefix] at hpre
  have heq := List.prefix_iff_eq_take.mp hpre
  have hcontent : tk.text = List.take (k + 1) (List.drop c text) := by
    rw [hlen] at heq
    rw [heq, List.take_take, minInt_eq]
    congr 1
    omega
  refine ⟨htk, by omega, by omega, ?_⟩
  rw [hlen]
  exact hcontent

/-- Case analysis of `updateJumper`: the jumper is replaced or kept. -/
theorem updateJumper_cases (j : jumper) (b : ℚ) (tk : Token) :
    updateJumper j b tk = ⟨b + tk.distance, some tk⟩ ∨ updateJumper j b tk = j := by
  unfold updateJumper
  split
  · exact Or.inl rfl
  · exact Or.inr rfl

/-- The relaxed jumper's distance never exceeds the candidate's path value. -/
theorem updateJumper_min_le (j : jumper) (b : ℚ) (tk : Token) :
    (updateJumper j b tk).minDistance ≤ b + tk.distance := by
  unfold updateJumper
  split
  · exact le_refl _
  · rename_i hc
    push_neg at hc
    exact hc.2

/-- A relax never clears the stored token. -/
theorem updateJumper_token_none (j : jumper) (b : ℚ) (tk : Token)
    (h : (updateJumper j b tk).token = none) :
    updateJumper j b tk = j ∧ j.token = none := by
  rcases updateJumper_cases j b tk with hc | hc
  · rw [hc] at h
    exact absurd h (by simp)
  · rw [hc] at h
    exact ⟨hc, h⟩

/-- A relax never increases a touched jumper's distance. -/
theorem updateJumper_mono (j : jumper) (b : ℚ) (tk : Token)
    (h0 : j.minDistance ≠ 0) :
    (updateJumper j b tk).minDistance ≤ j.minDistance := by
  unfold updateJumper
  split
  · rename_i hc
    rcases hc with hc | hc
    · exact absurd hc h0
    · exact le_of_lt hc
  · exact le_refl _

/-- Reading a just-set in-range position. -/
theorem getD_set_self {α : Type} (l : List α) (i : Nat) (x d0 : α)
    (h : i < l.length) : (l.set i x).getD i d0 = x := by
  rw [List.getD_eq_getElem _ _ (by simpa using h), List.getElem_set_self]

/-- Reading any other position after a set. -/
theorem getD_set_ne {α : Type} (l : List α) (i j : Nat) (x d0 : α)
    (h : j ≠ i) : (l.set i x).getD j d0 = l.getD j d0 := by
  by_cases hj : j < l.length
  · rw [List.getD_eq_getElem _ _ (by simpa using hj), List.getD_eq_getElem _ _ hj,
      List.getElem_set_ne (by omega)]
  · rw [List.getD_eq_default _ _ (by simpa using Nat.le_of_not_lt hj),
      List.getD_eq_default _ _ (Nat.le_of_not_lt hj)]

/-- Every candidate is non-empty, fits before the end of the input, and its
text is exactly the atom slice it covers. -/
theorem isCandidate_spec {d : Dictionary} {text : List Text} {sm : Bool}
    {c : Nat} {tk : Token} (h : isCandidate d text sm c tk) :
    1 ≤ tk.text.length ∧ c + tk.text.length ≤ text.length ∧
      tk.text = List.take tk.text.length (List.drop c text) := by
  obtain ⟨hc, hcase⟩ := h
  rcases hcase with ⟨hmem, _⟩ | ⟨rfl, _⟩
  · exact (lookupAt_spec d text c tk hmem).2
  · have hdrop : List.drop c text = text.getD c default :: List.drop (c + 1) text := by
      rw [List.getD_eq_getElem _ _ hc]
      exact List.drop_eq_getElem_cons hc
    refine ⟨by simp [fallbackToken, Token.text], by simp [fallbackToken, Token.text]; omega, ?_⟩
    simp only [fallbackToken, Token.text, List.length_singleton]
    rw [hdrop]
    rfl

/-- Under strictly positive dictionary distances every candidate has a
strictly positive distance (the fallback's is 32). -/
theorem isCandidate_dist_pos {d : Dictionary} {text : List Text} {sm : Bool}
    {c : Nat} {tk : Token} (Hpos : ∀ t ∈ d.tokens, 0 < t.distance)
    (h : isCandidate d text sm c tk) : 0 < tk.distance := by
  rcases h.2 with ⟨hmem, _⟩ | ⟨rfl, _⟩
  · exact Hpos tk (lookupAt_spec d text c tk hmem).1
  · norm_num [fallbackToken, Token.distance]

/-- Path end positions stay within the input. -/
theorem PathTo.le_len {d : Dictionary} {text : List Text} {sm : Bool}
    {m : Nat} {q : ℚ} (h : PathTo d text sm m q) : m ≤ text.length := by
  induction h with
  | nil => exact Nat.zero_le _
  | cons hp hc ih => exact (isCandidate_spec hc).2.1

/-- Path costs are non-negative under strictly positive distances. -/
theorem PathTo.nonneg {d : Dictionary} {text : List Text} {sm : Bool}
    {m : Nat} {q : ℚ} (Hpos : ∀ t ∈ d.tokens, 0 < t.distance)
    (h : PathTo d text sm m q) : 0 ≤ q := by
  induction h with
  | nil => exact le_refl _
  | cons hp hc ih =>
    have := isCandidate_dist_pos Hpos hc
    linarith

/-- Non-trivial path costs are strictly positive. -/
theorem PathTo.pos {d : Dictionary} {text : List Text} {sm : Bool}
    {m : Nat} {q : ℚ} (Hpos : ∀ t ∈ d.tokens, 0 < t.distance)
    (h : PathTo d text sm m q) (hm : 1 ≤ m) : 0 < q := by
  cases h with
  | nil => omega
  | cons hp hc =>
    have h1 := PathTo.nonneg Hpos hp
    have h2 := isCandidate_dist_pos Hpos hc
    linarith

/-! Forward-loop invariant. -/

/-- Invariant of the forward lattice loop after `k` iterations, on the jumper
state `J`: the state has one jumper per atom; every stored token is a
candidate ending at its position whose stored distance is an actual path cost;
untouched jumpers carry the zero sentinel; and all positions before `k` are
touched. -/
structure LatticeInv (d : Dictionary) (text : List Text) (sm : Bool) (k : Nat)
    (J : List jumper) : Prop where
  length_eq : J.length = text.length
  sound : ∀ i, i < text.length → ∀ tk, (J.getD i default).token = some tk →
    tk.text.length ≤ i + 1 ∧
    isCandidate d text sm (i + 1 - tk.text.length) tk ∧
    ∃ q0, PathTo d text sm (i + 1 - tk.text.length) q0 ∧
      (J.getD i default).minDistance = q0 + tk.distance
  blank : ∀ i, i < text.length → (J.getD i default).token = none →
    (J.getD i default).minDistance = 0
  settled : ∀ i, i < k → (J.getD i default).token ≠ none

/-- A touched jumper's stored distance is an actual path cost to one past its
position. -/
theorem LatticeInv.path_at {d : Dictionary} {text : List Text} {sm : Bool}
    {k : Nat} {J : List jumper} (inv : LatticeInv d text sm k J) {i : Nat}
    (hi : i < text.length) {tk : Token}
    (htk : (J.getD i default).token = some tk) :
    PathTo d text sm (i + 1) ((J.getD i default).minDistance) := by
  obtain ⟨hle, hcand, q0, hq0, hmin⟩ := inv.sound i hi tk htk
  have hlen := (isCandidate_spec hcand).1
  have h := PathTo.cons hq0 hcand
  rw [show (i + 1 - tk.text.length) + tk.text.length = i + 1 by omega] at h
  rw [hmin]
  exact h

/-- The base distance read at the start of iteration `c` is an actual path
cost covering the first `c` atoms. -/
theorem baseDistanceAt_path {d : Dictionary} {text : List Text} {sm : Bool}
    {k : Nat} {J : List jumper} (inv : LatticeInv d text sm k J) (c : Nat)
    (hck : c ≠ 0 → c - 1 < k ∧ c - 1 < text.length) :
    PathTo d text sm c (baseDistanceAt J c) := by
  unfold baseDistanceAt
  split
  · rename_i h0
    rw [h0]
    exact PathTo.nil
  · rename_i h0
    obtain ⟨hk', hn'⟩ := hck h0
    have hs := inv.settled (c - 1) hk'
    rcases Option.ne_none_iff_exists'.mp hs with ⟨tk, htk⟩
    have h := inv.path_at hn' htk
    rw [show c - 1 + 1 = c by omega] at h
    exact h

/-- Setting some position to a relax by a candidate preserves the invariant. -/
theorem set_update_inv {d : Dictionary} {text : List Text} {sm : Bool} {k : Nat}
    {J : List jumper} (inv : LatticeInv d text sm k J) (c : Nat) (b : ℚ)
    (hb : PathTo d text sm c b) (tk : Token)
    (hcand : isCandidate d text sm c tk) :
    LatticeInv d text sm k
      (J.set (c + tk.text.length - 1)
        (updateJumper (J.getD (c + tk.text.length - 1) default) b tk)) := by
  obtain ⟨hlen1, hlen2, _⟩ := isCandidate_spec hcand
  have hloc : c + tk.text.length - 1 < text.length := by omega
  have hlocJ : c + tk.text.length - 1 < J.length := by rw [inv.length_eq]; exact hloc
  have hset : (J.set (c + tk.text.length - 1)
      (updateJumper (J.getD (c + tk.text.length - 1) default) b tk)).getD
        (c + tk.text.length - 1) default
      = updateJumper (J.getD (c + tk.text.length - 1) default) b tk :=
    getD_set_self _ _ _ _ hlocJ
  constructor
  · rw [List.length_set]
    exact inv.length_eq
  · intro i hi tk' htk'
    by_cases hie : i = c + tk.text.length - 1
    · subst hie
      rw [hset] at htk' ⊢
      rcases updateJumper_cases (J.getD (c + tk.text.length - 1) default) b tk
        with hcase | hcase
      · rw [hcase] at htk' ⊢
        have htk'' : tk = tk' := by simpa using htk'
        subst htk''
        refine ⟨by omega, ?_, b, ?_, rfl⟩
        · rw [show c + tk.text.length - 1 + 1 - tk.text.length = c by omega]
          exact hcand
        · rw [show c + tk.text.length - 1 + 1 - tk.text.length = c by omega]
          exact hb
      · rw [hcase] at htk' ⊢
        exact inv.sound _ hi tk' htk'
    · rw [getD_set_ne _ _ _ _ _ hie] at htk' ⊢
      exact inv.sound _ hi tk' htk'
  · intro i hi hnone
    by_cases hie : i = c + tk.text.length - 1
    · subst hie
      rw [hset] at hnone ⊢
      obtain ⟨heq, hold⟩ := updateJumper_token_none _ _ _ hnone
      rw [heq]
      exact inv.blank _ hi hold
    · rw [getD_set_ne _ _ _ _ _ hie] at hnone ⊢
      exact inv.blank _ hi hnone
  · intro i hik
    by_cases hie : i = c + tk.text.length - 1
    · subst hie
      rw [hset]
      intro hnone
      obtain ⟨_, hold⟩ := updateJumper_token_none _ _ _ hnone
      exact inv.settled _ hik hold
    · rw [getD_set_ne _ _ _ _ _ hie]
      exact inv.settled _ hik

/-- One relax of a looked-up token preserves the invariant. -/
theorem relaxOne_inv {d : Dictionary} {text : List Text} {sm : Bool} {k : Nat}
    {J : List jumper} (inv : LatticeInv d text sm k J) (c : Nat)
    (hc : c < text.length) (b : ℚ) (hb : PathTo d text sm c b) (tk : Token)
    (htk : tk ∈ lookupAt d text c) :
    LatticeInv d text sm k (relaxOne sm text.length c b J tk) := by
  unfold relaxOne
  split
  · rename_i hguard
    exact set_update_inv inv c b hb tk ⟨hc, Or.inl ⟨htk, by tauto⟩⟩
  · exact inv

/-- The relax loop over the looked-up tokens preserves the invariant. -/
theorem relaxTokens_inv {d : Dictionary} {text : List Text} {sm : Bool} {k : Nat}
    (c : Nat) (hc : c < text.length) (b : ℚ) :
    ∀ (tks : List Token) (J : List jumper), LatticeInv d text sm k J →
      PathTo d text sm c b → (∀ tk ∈ tks, tk ∈ lookupAt d text c) →
      LatticeInv d text sm k (relaxTokens sm text.length c b tks J) := by
  intro tks
  induction tks with
  | nil => intro J inv _ _; exact inv
  | cons tk tks ih =>
    intro J inv hb htks
    unfold relaxTokens at *
    rw [List.foldl_cons]
    exact ih _ (relaxOne_inv inv c hc b hb tk (htks tk (List.mem_cons_self tk tks))) hb
      (fun t ht => htks t (List.mem_cons_of_mem tk ht))

/-- A relax never untouches any position. -/
theorem relaxOne_preserves_touched {sm : Bool} {n c : Nat} {b : ℚ}
    {J : List jumper} {tk : Token} {i : Nat}
    (h : (J.getD i default).token ≠ none) :
    ((relaxOne sm n c b J tk).getD i default).token ≠ none := by
  unfold relaxOne
  split
  · by_cases hie : i = c + tk.text.length - 1
    · rw [hie] at h ⊢
      by_cases hiJ : c + tk.text.length - 1 < J.length
      · rw [getD_set_self _ _ _ _ hiJ]
        intro hnone
        obtain ⟨_, hold⟩ := updateJumper_token_none _ _ _ hnone
        exact h hold
      · rw [List.getD_eq_default _ _ (by rw [List.length_set]; omega)]
        rw [List.getD_eq_default _ _ (by omega)] at h
        exact h
    · rw [getD_set_ne _ _ _ _ _ hie]
      exact h
  · exact h

/-- The relax loop never untouches any position. -/
theorem relaxTokens_preserves_touched {sm : Bool} {n c : Nat} {b : ℚ} {i : Nat} :
    ∀ (tks : List Token) (J : List jumper), (J.getD i default).token ≠ none →
      ((relaxTokens sm n c b tks J).getD i default).token ≠ none := by
  intro tks
  induction tks with
  | nil => intro J h; exact h
  | cons tk tks ih =>
    intro J h
    unfold relaxTokens at *
    rw [List.foldl_cons]
    exact ih _ (relaxOne_preserves_touched h)

/-- Relaxing a one-atom candidate with a true guard touches its position. -/
theorem relaxOne_touches {sm : Bool} {n c : Nat} {b : ℚ} {J : List jumper}
    {tk : Token} (hlen : tk.text.length = 1)
    (hguard : ¬sm = true ∨ c ≠ 0 ∨ c + tk.text.length - 1 ≠ n - 1)
    (hcJ : c < J.length)
    (hblank : (J.getD c default).token = none → (J.getD c default).minDistance = 0) :
    ((relaxOne sm n c b J tk).getD c default).token ≠ none := by
  unfold relaxOne
  rw [if_pos hguard]
  have hloc : c + tk.text.length - 1 = c := by omega
  rw [hloc, getD_set_self _ _ _ _ hcJ]
  intro hnone
  obtain ⟨heq, holdnone⟩ := updateJumper_token_none _ _ _ hnone
  have hmin := hblank holdnone
  unfold updateJumper at heq
  rw [if_pos (Or.inl hmin)] at heq
  have := congrArg jumper.token heq
  rw [holdnone] at this
  simp at this

/-- After iteration `c` of the forward loop, position `c` is touched and the
invariant advances. -/
theorem segmentStep_inv {d : Dictionary} {text : List Text} {sm : Bool} {k : Nat}
    {J : List jumper} (inv : LatticeInv d text sm k J) (hkn : k < text.length)
    (Hsm : sm = true → text.length ≠ 1) :
    LatticeInv d text sm (k + 1) (segmentStep d text sm J k) := by
  have hb : PathTo d text sm k (baseDistanceAt J k) :=
    baseDistanceAt_path inv k (by omega)
  have invJs : LatticeInv d text sm k
      (relaxTokens sm text.length k (baseDistanceAt J k) (lookupAt d text k) J) :=
    relaxTokens_inv k hkn _ _ J inv hb (fun _ ht => ht)
  unfold segmentStep
  split
  · rename_i hfb
    -- fallback branch: set position k with the fallback relax
    have hcand : isCandidate d text sm k (fallbackToken (text.getD k default)) :=
      ⟨hkn, Or.inr ⟨rfl, hfb⟩⟩
    have hlen : (fallbackToken (text.getD k default)).text.length = 1 := by
      simp [fallbackToken, Token.text]
    have h := set_update_inv invJs k (baseDistanceAt J k) hb _ hcand
    rw [show k + (fallbackToken (text.getD k default)).text.length - 1 = k by omega] at h
    refine ⟨h.length_eq, h.sound, h.blank, ?_⟩
    intro i hik
    by_cases hik' : i < k
    · exact h.settled i hik'
    · have hieq : i = k := by omega
      subst hieq
      have hiJ : i < (relaxTokens sm text.length i (baseDistanceAt J i)
          (lookupAt d text i) J).length := by
        rw [invJs.length_eq]; exact hkn
      rw [getD_set_self _ _ _ _ hiJ]
      intro hnone
      obtain ⟨heq, holdnone⟩ := updateJumper_token_none _ _ _ hnone
      have hmin := invJs.blank i hkn holdnone
      unfold updateJumper at heq
      rw [if_pos (Or.inl hmin)] at heq
      have := congrArg jumper.token heq
      rw [holdnone] at this
      simp at this
  · rename_i hfb
    refine ⟨invJs.length_eq, invJs.sound, invJs.blank, ?_⟩
    intro i hik
    by_cases hik' : i < k
    · exact invJs.settled i hik'
    · have hieq : i = k := by omega
      subst hieq
      -- no fallback: the shortest match has exactly one atom and touches i
      unfold fallbackAt at hfb
      push_neg at hfb
      obtain ⟨hne, hhead⟩ := hfb
      rcases htks : lookupAt d text i with _ | ⟨hd, tl⟩
      · rw [htks] at hne
        simp at hne
      · have hhd : hd ∈ lookupAt d text i := by rw [htks]; exact List.mem_cons_self hd tl
        have hhd1 : hd.text.length = 1 := by
          have h1 := (lookupAt_spec d text i hd hhd).2.1
          rw [htks] at hhead
          simp only [List.headD_cons] at hhead
          omega
        have hguard : ¬sm = true ∨ i ≠ 0 ∨ i + hd.text.length - 1 ≠ text.length - 1 := by
          by_cases hsm : sm = true
          · by_cases hi0 : i = 0
            · subst hi0
              right; right
              have := Hsm hsm
              omega
            · right; left; exact hi0
          · left; exact hsm
        unfold relaxTokens
        rw [List.foldl_cons]
        have htouch := @relaxOne_touches sm text.length i (baseDistanceAt J i) J hd
          hhd1 hguard (by rw [inv.length_eq]; exact hkn) (inv.blank i hkn)
        exact relaxTokens_preserves_touched tl _ htouch

/-- Jumper state after the first `k` iterations of the forward loop. -/
def stepN (d : Dictionary) (text : List Text) (sm : Bool) (k : Nat) : List jumper :=
  (List.range k).foldl (segmentStep d text sm) (List.replicate text.length default)

/-- The forward loop runs all `text.length` iterations. -/
theorem runJumpers_eq_stepN (d : Dictionary) (text : List Text) (sm : Bool) :
    runJumpers d text sm = stepN d text sm text.length := rfl

/-- Unfolding one iteration of the forward loop. -/
theorem stepN_succ (d : Dictionary) (text : List Text) (sm : Bool) (k : Nat) :
    stepN d text sm (k + 1) = segmentStep d text sm (stepN d text sm k) k := by
  unfold stepN
  rw [List.range_succ, List.foldl_append, List.foldl_cons, List.foldl_nil]

/-- The initial all-zero jumper state satisfies the invariant at zero. -/
theorem replicate_inv (d : Dictionary) (text : List Text) (sm : Bool) :
    LatticeInv d text sm 0 (List.replicate text.length default) := by
  have hrep : ∀ i, i < text.length →
      (List.replicate text.length (default : jumper)).getD i default = ⟨0, none⟩ := by
    intro i hi
    rw [List.getD_eq_getElem _ _ (by simpa using hi), List.getElem_replicate]
    rfl
  constructor
  · exact List.length_replicate _ _
  · intro i hi tk htk
    rw [hrep i hi] at htk
    exact absurd htk (by simp)
  · intro i hi _
    rw [hrep i hi]
  · intro i hi
    omega

/-- Master invariant: after `k ≤ text.length` iterations of the forward loop
the lattice invariant holds at `k`. -/
theorem stepN_inv (d : Dictionary) (text : List Text) (sm : Bool)
    (Hsm : sm = true → text.length ≠ 1) :
    ∀ k, k ≤ text.length → LatticeInv d text sm k (stepN d text sm k) := by
  intro k
  induction k with
  | zero => intro _; exact replicate_inv d text sm
  | succ k ih =>
    intro hk
    rw [stepN_succ]
    exact segmentStep_inv (ih (by omega)) (by omega) Hsm

/-- Invariant of the completed forward loop. -/
theorem runJumpers_inv (d : Dictionary) (text : List Text) (sm : Bool)
    (Hsm : sm = true → text.length ≠ 1) :
    LatticeInv d text sm text.length (runJumpers d text sm) := by
  rw [runJumpers_eq_stepN]
  exact stepN_inv d text sm Hsm text.length (le_refl _)

/-- The backward scan succeeds, covers exactly the scanned atoms, and emits
only stored jumper tokens. -/
theorem backScanF_covers {d : Dictionary} {text : List Text} {sm : Bool}
    {J : List jumper} (inv : LatticeInv d text sm text.length J) :
    ∀ (fuel idx1 : Nat), idx1 ≤ fuel → idx1 ≤ text.length →
      ∃ toks, backScanF J fuel idx1 = some toks ∧
        (toks.reverse.map Token.text).flatten = List.take idx1 text ∧
        ∀ tk ∈ toks, ∃ i, i < text.length ∧ (J.getD i default).token = some tk := by
  intro fuel
  induction fuel with
  | zero =>
    intro idx1 h1 _
    have h0 : idx1 = 0 := by omega
    subst h0
    exact ⟨[], rfl, by simp, by intro tk htk; exact absurd htk (List.not_mem_nil tk)⟩
  | succ fuel ih =>
    intro idx1 h1 h2
    match idx1 with
    | 0 => exact ⟨[], rfl, by simp, by intro tk htk; exact absurd htk (List.not_mem_nil tk)⟩
    | idx + 1 =>
      have hidx : idx < text.length := by omega
      have hsettled := inv.settled idx hidx
      rcases Option.ne_none_iff_exists'.mp hsettled with ⟨tk, htk⟩
      obtain ⟨hle, hcand, _⟩ := inv.sound idx hidx tk htk
      obtain ⟨hlen1, hlen2, hcontent⟩ := isCandidate_spec hcand
      obtain ⟨toks, htoks, hcover, hmem⟩ :=
        ih (idx + 1 - tk.text.length) (by omega) (by omega)
      refine ⟨tk :: toks, ?_, ?_, ?_⟩
      · simp only [backScanF, htk]
        rw [if_neg (by omega), htoks]
        rfl
      · simp only [List.reverse_cons, List.map_append, List.flatten_append, hcover]
        simp only [List.map_cons, List.map_nil, List.flatten_cons, List.flatten_nil,
          List.append_nil]
        nth_rewrite 2 [hcontent]
        rw [← List.take_add]
        congr 1
        omega
      · intro t ht
        rcases List.mem_cons.mp ht with rfl | ht'
        · exact ⟨idx, hidx, htk⟩
        · exact hmem t ht'

/-- Claim C4: for a non-empty atom sequence (of length at least 2 in search
mode), after the forward loop every position's jumper holds a token with at
least one atom, and the backward reconstruction scan succeeds: its index
strictly decreases each step (each stored token covers at least one atom), it
terminates at the start, and it never dereferences a missing token. -/
theorem runJumpers_touched_backScan (d : Dictionary) (text : List Text) (sm : Bool)
    (Hne : text ≠ []) (Hsm : sm = true → text.length ≠ 1) :
    (∀ i, i < text.length →
        ∃ tk, ((runJumpers d text sm).getD i default).token = some tk ∧
          1 ≤ tk.text.length) ∧
      ∃ toks, backScan (runJumpers d text sm) text.length = some toks := by
  have inv := runJumpers_inv d text sm Hsm
  constructor
  · intro i hi
    rcases Option.ne_none_iff_exists'.mp (inv.settled i hi) with ⟨tk, htk⟩
    exact ⟨tk, htk, (isCandidate_spec (inv.sound i hi tk htk).2.1).1⟩
  · obtain ⟨toks, htoks, _, _⟩ :=
      backScanF_covers inv text.length text.length (le_refl _) (le_refl _)
    exact ⟨toks, htoks⟩

/-- Witness for `runJumpers_touched_backScan` at a one-atom input and the
empty dictionary. -/
theorem runJumpers_touched_backScan_witness :
    ([[97]] : List Text) ≠ [] ∧
      ((∀ i, i < ([[97]] : List Text).length →
          ∃ tk, ((runJumpers ⟨[], 0⟩ [[97]] false).getD i default).token = some tk ∧
            1 ≤ tk.text.length) ∧
        ∃ toks, backScan (runJumpers ⟨[], 0⟩ [[97]] false) ([[97]] : List Text).length
          = some toks) :=
  ⟨by decide, runJumpers_touched_backScan ⟨[], 0⟩ [[97]] false (by decide) (by simp)⟩

/-- Tokens of assigned spans are the scanned tokens. -/
theorem assignSpans_token_mem :
    ∀ (toks : List Token) (p : Nat) (s : Segment),
      s ∈ assignSpans toks p → s.token ∈ toks := by
  intro toks
  induction toks with
  | nil => intro p s hs; exact absurd hs (List.not_mem_nil s)
  | cons tk toks ih =>
    intro p s hs
    unfold assignSpans at hs
    rcases List.mem_cons.mp hs with rfl | hs'
    · exact List.mem_cons_self _ _
    · exact List.mem_cons_of_mem _ (ih _ s hs')

/-- Every token of an output segment of `segmentWords` is a token stored in
some jumper of the completed forward loop. -/
theorem segmentWords_token_stored {d : Dictionary} {text : List Text} {sm : Bool}
    (Hsm : sm = true → text.length ≠ 1) {s : Segment}
    (hs : s ∈ segmentWords d text sm) :
    ∃ i, i < text.length ∧
      ((runJumpers d text sm).getD i default).token = some s.token := by
  have inv := runJumpers_inv d text sm Hsm
  unfold segmentWords segmentWordsAll at hs
  rw [if_neg (by tauto)] at hs
  have hs' := List.mem_of_mem_filter hs
  have htok := assignSpans_token_mem _ _ _ hs'
  obtain ⟨toks, htoks, _, hmem⟩ :=
    backScanF_covers inv text.length text.length (le_refl _) (le_refl _)
  unfold segmentTokens backScan at htok
  rw [htoks] at htok
  simp only [Option.getD_some, List.mem_reverse] at htok
  exact hmem s.token htok

/-- Claim C5: in search mode `segmentWords` never returns a whole-span
segment: a one-atom input yields the empty result, and for any input no
returned segment's token covers all atoms (in particular no returned token's
text equals the whole atom sequence), so search-mode sub-segmentation of a
token's own text never reproduces that exact token. -/
theorem segmentWords_search_no_whole (d : Dictionary) (text : List Text) :
    (∀ s ∈ segmentWords d text true,
        s.token.text.length < text.length ∧ s.token.text ≠ text) ∧
      (text.length = 1 → segmentWords d text true = []) := by
  by_cases h1 : text.length = 1
  · constructor
    · intro s hs
      unfold segmentWords segmentWordsAll at hs
      rw [if_pos ⟨rfl, h1⟩] at hs
      exact absurd hs (by simp)
    · intro _
      unfold segmentWords segmentWordsAll
      rw [if_pos ⟨rfl, h1⟩]
      rfl
  · refine ⟨?_, fun h => absurd h h1⟩
    intro s hs
    obtain ⟨i, hi, htk⟩ := segmentWords_token_stored (fun _ => h1) hs
    have inv := runJumpers_inv d text true (fun _ => h1)
    obtain ⟨hle, hcand, _⟩ := inv.sound i hi s.token htk
    obtain ⟨hlen1, hlen2, _⟩ := isCandidate_spec hcand
    have hlt : s.token.text.length < text.length := by
      rcases Nat.lt_or_ge s.token.text.length text.length with h | h
      · exact h
      · exfalso
        have hlen : s.token.text.length = text.length := by omega
        have hc0 : i + 1 - s.token.text.length = 0 := by omega
        have hin1 : i = text.length - 1 := by omega
        rw [hc0] at hcand
        rcases hcand.2 with ⟨_, hskip⟩ | ⟨hfb, _⟩
        · exact hskip ⟨rfl, rfl, by omega⟩
        · have : s.token.text.length = 1 := by
            rw [hfb]
            simp [fallbackToken, Token.text]
          omega
    exact ⟨hlt, fun he => by rw [he] at hlt; omega⟩

/-! Claim C2: byte-span coverage of `Segment`. -/

/-- Segments dropped by the `__STOP__` filter of `segmentWords` for a given
query (the complement of the filter kept by `Segment`). -/
def droppedStops (d : Dictionary) (bytes : List Nat) : List Segment :=
  if bytes.length = 0 then []
  else (segmentWordsAll d (splitTextToWords bytes) false).filter
    fun s => !(s.token.pos != "__STOP__")

/-- Span accessor on a built segment. -/
theorem Segment_endPos_mk (a b : Nat) (t : Token) : (Segment.mk a b t).endPos = b := rfl

/-- Start accessor on a built segment. -/
theorem Segment_start_mk (a b : Nat) (t : Token) : (Segment.mk a b t).start = a := rfl

/-- Splitting a sum over a filter and its complement. -/
theorem sum_filter_split {α : Type} (p : α → Bool) (f : α → Nat) :
    ∀ l : List α,
      ((l.filter p).map f).sum + ((l.filter fun x => !p x).map f).sum
        = (l.map f).sum := by
  intro l
  induction l with
  | nil => rfl
  | cons a l ih =>
    rw [List.filter_cons, List.filter_cons]
    by_cases hp : p a = true
    · rw [if_pos hp, if_neg (by simp [hp])]
      simp only [List.map_cons, List.sum_cons]
      omega
    · have hp' : p a = false := by simpa using hp
      rw [if_neg (by simp [hp']), if_pos (by simp [hp'])]
      simp only [List.map_cons, List.sum_cons]
      omega

/-- The spans assigned by the byte-position walk sum to the total byte length
of the emitted tokens. -/
theorem assignSpans_sum :
    ∀ (toks : List Token) (p : Nat),
      ((assignSpans toks p).map fun s => s.endPos - s.start).sum
        = (toks.map fun tk => textSliceByteLength tk.text).sum := by
  intro toks
  induction toks with
  | nil => intro p; rfl
  | cons tk toks ih =>
    intro p
    unfold assignSpans
    simp only [List.map_cons, List.sum_cons, Segment_endPos_mk, Segment_start_mk]
    rw [ih]
    omega

/-- Total byte length distributes over flattening. -/
theorem textSliceByteLength_flatten :
    ∀ ls : List (List Text),
      textSliceByteLength ls.flatten = (ls.map textSliceByteLength).sum := by
  intro ls
  induction ls with
  | nil => rfl
  | cons l ls ih =>
    simp only [List.flatten_cons, List.map_cons, List.sum_cons, ← ih]
    unfold textSliceByteLength
    simp

/-- Claim C2 (amended): for every dictionary and input, the sum of
`end - start` over the segments returned by `Segment(bytes)` plus the spans of
the segments dropped by the `__STOP__` filter equals the total byte length of
the atom sequence `splitTextToWords bytes` — that is, `len(bytes)` minus one
byte for every single-space atom discarded at atomization time (spans are
assigned by a running cursor over the kept atoms' byte lengths). -/
theorem segment_coverage (d : Dictionary) (bytes : List Nat) :
    ((Segmenter.Segment ⟨d⟩ bytes).map fun s => s.endPos - s.start).sum +
      ((droppedStops d bytes).map fun s => s.endPos - s.start).sum
      = textSliceByteLength (splitTextToWords bytes) := by
  unfold Segmenter.Segment internalSegment droppedStops
  by_cases hb : bytes.length = 0
  · rw [if_pos hb, if_pos hb]
    have : bytes = [] := List.length_eq_zero.mp hb
    subst this
    rfl
  · rw [if_neg hb, if_neg hb]
    unfold segmentWords
    rw [sum_filter_split (fun s => s.token.pos != "__STOP__")
      (fun s => s.endPos - s.start) (segmentWordsAll d (splitTextToWords bytes) false)]
    unfold segmentWordsAll
    rw [if_neg (by simp)]
    rw [assignSpans_sum]
    have inv := runJumpers_inv d (splitTextToWords bytes) false (by simp)
    obtain ⟨toks, htoks, hcover, _⟩ := backScanF_covers inv
      (splitTextToWords bytes).length (splitTextToWords bytes).length
      (le_refl _) (le_refl _)
    unfold segmentTokens backScan
    rw [htoks]
    simp only [Option.getD_some]
    have h1 : ((toks.reverse).map fun tk => textSliceByteLength tk.text).sum
        = textSliceByteLength (splitTextToWords bytes) := by
      rw [show (fun tk => textSliceByteLength (Token.text tk))
          = textSliceByteLength ∘ Token.text from rfl]
      rw [← List.map_map, ← textSliceByteLength_flatten, hcover, List.take_length]
    exact h1

/-- Claim C2 (as stated): the spans of returned plus stop-dropped segments sum
to `len(bytes)`.  This is false: atoms equal to the single space are dropped
at atomization time and their bytes are never spanned.  On input `"a b"` with
the empty dictionary the two returned fallback segments span 2 bytes while
the input has 3. -/
theorem claim_c2_counterexample :
    ¬ (∀ (d : Dictionary) (bytes : List Nat),
        ((Segmenter.Segment ⟨d⟩ bytes).map fun s => s.endPos - s.start).sum +
          ((droppedStops d bytes).map fun s => s.endPos - s.start).sum
          = bytes.length) := by
  intro h
  have h1 := h ⟨[], 0⟩ [97, 32, 98]
  have h2 : Segmenter.Segment ⟨⟨[], 0⟩⟩ [97, 32, 98] =
      [Segment.mk 0 1 (fallbackToken [97]), Segment.mk 1 2 (fallbackToken [98])] := by
    norm_num [Segmenter.Segment, internalSegment, segmentWords, segmentWordsAll,
      runJumpers, segmentStep, lookupAt, relaxTokens, relaxOne, updateJumper,
      baseDistanceAt, fallbackAt, fallbackToken, Dictionary.lookupTokens, minInt,
      List.range_succ, default_jumper, segmentTokens, backScan, backScanF, assignSpans,
      textSliceByteLength, splitTextToWords, splitLoopF, emitWord, emittedWord,
      classifyAt, sizeAt, utf8DecodeRune, toLower, isUnicodeLetter, isUnicodeNumber,
      letterRanges, numberRanges, wordAlpha, wordNumber, wordOther, Token.text,
      Token.pos, Segment.token]
    all_goals decide
  have h3 : droppedStops ⟨[], 0⟩ [97, 32, 98] = [] := by
    norm_num [droppedStops, segmentWordsAll, runJumpers, segmentStep, lookupAt,
      relaxTokens, relaxOne, updateJumper, baseDistanceAt, fallbackAt, fallbackToken,
      Dictionary.lookupTokens, minInt, List.range_succ, default_jumper, segmentTokens,
      backScan, backScanF, assignSpans, textSliceByteLength, splitTextToWords,
      splitLoopF, emitWord, emittedWord, classifyAt, sizeAt, utf8DecodeRune, toLower,
      isUnicodeLetter, isUnicodeNumber, letterRanges, numberRanges, wordAlpha,
      wordNumber, wordOther, Token.text, Token.pos, Segment.token]
    all_goals decide
  rw [h2, h3] at h1
  simp [Segment.endPos, Segment.start] at h1

/-! Minimality of the forward loop (claim C1). -/

/-- Under strictly positive distances, touched jumpers hold strictly positive
distances, so the zero sentinel is unambiguous. -/
theorem touched_pos {d : Dictionary} {text : List Text} {sm : Bool} {k : Nat}
    {J : List jumper} (inv : LatticeInv d text sm k J)
    (Hpos : ∀ t ∈ d.tokens, 0 < t.distance) {i : Nat} (hi : i < text.length)
    (htouch : (J.getD i default).token ≠ none) :
    0 < (J.getD i default).minDistance := by
  rcases Option.ne_none_iff_exists'.mp htouch with ⟨tk, htk⟩
  obtain ⟨_, hcand, q0, hq0, hmin⟩ := inv.sound i hi tk htk
  have h1 := PathTo.nonneg Hpos hq0
  have h2 := isCandidate_dist_pos Hpos hcand
  rw [hmin]
  linarith

/-- One relax does not increase the distance of a touched position. -/
theorem relaxOne_min_mono {d : Dictionary} {text : List Text} {sm : Bool} {k : Nat}
    {J : List jumper} (inv : LatticeInv d text sm k J)
    (Hpos : ∀ t ∈ d.tokens, 0 < t.distance) (c : Nat) (b : ℚ) (tk : Token)
    (i : Nat) (hi : i < text.length)
    (htouch : (J.getD i default).token ≠ none) :
    ((relaxOne sm text.length c b J tk).getD i default).minDistance
      ≤ (J.getD i default).minDistance := by
  unfold relaxOne
  split
  · by_cases hie : i = c + tk.text.length - 1
    · rw [← hie]
      rw [getD_set_self _ _ _ _ (by rw [inv.length_eq]; exact hi)]
      exact updateJumper_mono _ _ _ (by
        have := touched_pos inv Hpos hi htouch
        linarith)
    · rw [getD_set_ne _ _ _ _ _ hie]
  · exact le_refl _

/-- The relax loop does not increase the distance of a touched position. -/
theorem relaxTokens_min_mono {d : Dictionary} {text : List Text} {sm : Bool}
    {k : Nat} (Hpos : ∀ t ∈ d.tokens, 0 < t.distance) (c : Nat)
    (hc : c < text.length) (b : ℚ) :
    ∀ (tks : List Token) (J : List jumper), LatticeInv d text sm k J →
      PathTo d text sm c b → (∀ t ∈ tks, t ∈ lookupAt d text c) →
      ∀ i, i < text.length → (J.getD i default).token ≠ none →
      ((relaxTokens sm text.length c b tks J).getD i default).minDistance
        ≤ (J.getD i default).minDistance := by
  intro tks
  induction tks with
  | nil => intro J _ _ _ i _ _; exact le_refl _
  | cons hd tl ih =>
    intro J inv hb htks i hi htouch
    unfold relaxTokens at *
    rw [List.foldl_cons]
    have inv1 := relaxOne_inv inv c hc b hb hd (htks hd (List.mem_cons_self hd tl))
    have htouch1 : ((relaxOne sm text.length c b J hd).getD i default).token ≠ none :=
      relaxOne_preserves_touched htouch
    have h1 := ih _ inv1 hb (fun t ht => htks t (List.mem_cons_of_mem hd ht)) i hi htouch1
    have h2 := relaxOne_min_mono inv Hpos c b hd i hi htouch
    exact le_trans h1 h2

/-- A relax with a true guard bounds the target position's distance by the
candidate's path value and touches it. -/
theorem relaxOne_guard_le {d : Dictionary} {text : List Text} {sm : Bool} {k : Nat}
    {J : List jumper} (inv : LatticeInv d text sm k J) (c : Nat) (b : ℚ)
    (tk : Token)
    (hguard : ¬sm = true ∨ c ≠ 0 ∨ c + tk.text.length - 1 ≠ text.length - 1)
    (hloc : c + tk.text.length - 1 < text.length) :
    ((relaxOne sm text.length c b J tk).getD (c + tk.text.length - 1)
        default).minDistance ≤ b + tk.distance ∧
      ((relaxOne sm text.length c b J tk).getD (c + tk.text.length - 1)
        default).token ≠ none := by
  unfold relaxOne
  rw [if_pos hguard, getD_set_self _ _ _ _ (by rw [inv.length_eq]; exact hloc)]
  refine ⟨updateJumper_min_le _ _ _, ?_⟩
  intro hnone
  obtain ⟨heq, hold⟩ := updateJumper_token_none _ _ _ hnone
  have hmin := inv.blank _ hloc hold
  unfold updateJumper at heq
  rw [if_pos (Or.inl hmin)] at heq
  have := congrArg jumper.token heq
  rw [hold] at this
  simp at this

/-- After the relax loop, each non-skipped looked-up candidate's end position
is touched and bounded by that candidate's path value. -/
theorem relaxTokens_reaches {d : Dictionary} {text : List Text} {sm : Bool}
    {k : Nat} (Hpos : ∀ t ∈ d.tokens, 0 < t.distance) (c : Nat)
    (hc : c < text.length) (b : ℚ) (hb : PathTo d text sm c b) :
    ∀ (tks : List Token) (J : List jumper), LatticeInv d text sm k J →
      (∀ t ∈ tks, t ∈ lookupAt d text c) →
      ∀ tk ∈ tks,
        (¬sm = true ∨ c ≠ 0 ∨ c + tk.text.length - 1 ≠ text.length - 1) →
        ((relaxTokens sm text.length c b tks J).getD (c + tk.text.length - 1)
            default).minDistance ≤ b + tk.distance ∧
          ((relaxTokens sm text.length c b tks J).getD (c + tk.text.length - 1)
            default).token ≠ none := by
  intro tks
  induction tks with
  | nil => intro J _ _ tk htk _; exact absurd htk (List.not_mem_nil tk)
  | cons hd tl ih =>
    intro J inv htks tk htk hguard
    unfold relaxTokens at *
    rw [List.foldl_cons]
    have hhd := htks hd (List.mem_cons_self hd tl)
    have inv1 := relaxOne_inv inv c hc b hb hd hhd
    rcases List.mem_cons.mp htk with rfl | htl
    · obtain ⟨_, hlen1, hlen2, _⟩ := lookupAt_spec d text c tk hhd
      have hloc : c + tk.text.length - 1 < text.length := by omega
      obtain ⟨hle1, htouch1⟩ := relaxOne_guard_le inv c b tk hguard hloc
      have hmono := relaxTokens_min_mono Hpos c hc b tl _ inv1 hb
        (fun t ht => htks t (List.mem_cons_of_mem tk ht))
        (c + tk.text.length - 1) hloc htouch1
      refine ⟨le_trans hmono hle1, ?_⟩
      exact relaxTokens_preserves_touched tl _ htouch1
    · exact ih _ inv1 (fun t ht => htks t (List.mem_cons_of_mem hd ht)) tk htl hguard

/-- Paths to position zero cost zero. -/
theorem PathTo.zero_cost {d : Dictionary} {text : List Text} {sm : Bool}
    {m : Nat} {q : ℚ} (h : PathTo d text sm m q) (hm : m = 0) : q = 0 := by
  cases h with
  | nil => rfl
  | cons hp hc =>
    have := (isCandidate_spec hc).1
    omega

/-- Inversion of a non-trivial path: it ends with some candidate. -/
theorem PathTo.inv_succ {d : Dictionary} {text : List Text} {sm : Bool}
    {m : Nat} {q : ℚ} (h : PathTo d text sm m q) (hm : 1 ≤ m) :
    ∃ c' q' tk', PathTo d text sm c' q' ∧ isCandidate d text sm c' tk' ∧
      c' + tk'.text.length = m ∧ q = q' + tk'.distance := by
  cases h with
  | nil => omega
  | cons hp hc => exact ⟨_, _, _, hp, hc, rfl, rfl⟩

/-- An iteration of the forward loop never untouches any position. -/
theorem segmentStep_touched {d : Dictionary} {text : List Text} {sm : Bool}
    {J : List jumper} (k i : Nat)
    (htouch : (J.getD i default).token ≠ none) :
    ((segmentStep d text sm J k).getD i default).token ≠ none := by
  have htouchJs : ((relaxTokens sm text.length k (baseDistanceAt J k)
      (lookupAt d text k) J).getD i default).token ≠ none :=
    relaxTokens_preserves_touched _ _ htouch
  unfold segmentStep
  split
  · by_cases hie : i = k
    · rw [hie] at htouchJs ⊢
      by_cases hkJ : k < (relaxTokens sm text.length k (baseDistanceAt J k)
          (lookupAt d text k) J).length
      · rw [getD_set_self _ _ _ _ hkJ]
        intro hnone
        obtain ⟨_, hold⟩ := updateJumper_token_none _ _ _ hnone
        exact htouchJs hold
      · rw [List.getD_eq_default _ _ (by rw [List.length_set]; omega)]
        rw [List.getD_eq_default _ _ (by omega)] at htouchJs
        exact htouchJs
    · rw [getD_set_ne _ _ _ _ _ hie]
      exact htouchJs
  · exact htouchJs

/-- An iteration of the forward loop does not increase the distance of a
touched position. -/
theorem segmentStep_min_mono {d : Dictionary} {text : List Text} {sm : Bool}
    {k : Nat} {J : List jumper} (inv : LatticeInv d text sm k J)
    (Hpos : ∀ t ∈ d.tokens, 0 < t.distance) (hkn : k < text.length) (i : Nat)
    (hi : i < text.length) (htouch : (J.getD i default).token ≠ none) :
    ((segmentStep d text sm J k).getD i default).minDistance
      ≤ (J.getD i default).minDistance := by
  have hb := baseDistanceAt_path inv k (by omega)
  have invJs := relaxTokens_inv k hkn _ _ J inv hb (fun _ h => h)
  have hmono1 := relaxTokens_min_mono Hpos k hkn (baseDistanceAt J k)
    (lookupAt d text k) J inv hb (fun _ h => h) i hi htouch
  have htouchJs : ((relaxTokens sm text.length k (baseDistanceAt J k)
      (lookupAt d text k) J).getD i default).token ≠ none :=
    relaxTokens_preserves_touched _ _ htouch
  unfold segmentStep
  split
  · by_cases hie : i = k
    · rw [hie] at hmono1 htouchJs ⊢
      rw [getD_set_self _ _ _ _ (by rw [invJs.length_eq]; omega)]
      refine le_trans (updateJumper_mono _ _ _ ?_) hmono1
      have := touched_pos invJs Hpos (by omega : k < text.length) htouchJs
      linarith
    · rw [getD_set_ne _ _ _ _ _ hie]
      exact hmono1
  · exact hmono1

/-- Minimality invariant: after `k` iterations, for every candidate starting
before `k`, the jumper at the candidate's end position is touched and bounded
by every path through that candidate. -/
def MinProp (d : Dictionary) (text : List Text) (sm : Bool) (k : Nat)
    (J : List jumper) : Prop :=
  ∀ i, i < text.length → ∀ c tk, c < k → isCandidate d text sm c tk →
    c + tk.text.length = i + 1 →
    (J.getD i default).token ≠ none ∧
      ∀ q, PathTo d text sm c q →
        (J.getD i default).minDistance ≤ q + tk.distance

/-- One iteration advances the minimality invariant. -/
theorem segmentStep_min {d : Dictionary} {text : List Text} {sm : Bool} {k : Nat}
    {J : List jumper} (inv : LatticeInv d text sm k J)
    (hmin : MinProp d text sm k J) (Hpos : ∀ t ∈ d.tokens, 0 < t.distance)
    (hkn : k < text.length) (Hsm : sm = true → text.length ≠ 1) :
    MinProp d text sm (k + 1) (segmentStep d text sm J k) := by
  intro i hi c tk hck hcand hend
  by_cases hck' : c < k
  · obtain ⟨htouch, hle⟩ := hmin i hi c tk hck' hcand hend
    refine ⟨segmentStep_touched k i htouch, ?_⟩
    intro q hq
    exact le_trans (segmentStep_min_mono inv Hpos hkn i hi htouch) (hle q hq)
  · have hceq : c = k := by omega
    subst hceq
    have hb := baseDistanceAt_path inv c (by omega)
    have invJs := relaxTokens_inv c hkn _ _ J inv hb (fun _ h => h)
    have hble : ∀ q, PathTo d text sm c q → baseDistanceAt J c ≤ q := by
      intro q hq
      by_cases hc0 : c = 0
      · have hq0 := PathTo.zero_cost hq hc0
        unfold baseDistanceAt
        rw [if_pos hc0, hq0]
      · obtain ⟨c', q', tk', hq', hcand', hsum', hqeq⟩ :=
          PathTo.inv_succ hq (by omega)
        have hlen' := (isCandidate_spec hcand').1
        obtain ⟨_, hle'⟩ := hmin (c - 1) (by omega) c' tk' (by omega) hcand'
          (by omega)
        have hbase : baseDistanceAt J c = (J.getD (c - 1) default).minDistance := by
          unfold baseDistanceAt
          rw [if_neg hc0]
        rw [hbase, hqeq]
        exact hle' q' hq'
    have hlen := (isCandidate_spec hcand).1
    have hieq : i = c + tk.text.length - 1 := by omega
    rcases hcand.2 with ⟨hmem, hskip⟩ | ⟨hfb, hfbAt⟩
    · -- dictionary candidate, relaxed during the loop of iteration c
      have hguard : ¬sm = true ∨ c ≠ 0 ∨ c + tk.text.length - 1 ≠ text.length - 1 := by
        tauto
      obtain ⟨hreach, htouchJs⟩ := relaxTokens_reaches Hpos c hkn
        (baseDistanceAt J c) hb (lookupAt d text c) J inv (fun _ h => h) tk hmem
        hguard
      rw [← hieq] at hreach htouchJs
      have hfinal : ((segmentStep d text sm J c).getD i default).minDistance
            ≤ baseDistanceAt J c + tk.distance ∧
          ((segmentStep d text sm J c).getD i default).token ≠ none := by
        unfold segmentStep
        split
        · by_cases hie : i = c
          · rw [hie] at hreach htouchJs hi ⊢
            rw [getD_set_self _ _ _ _ (by rw [invJs.length_eq]; exact hi)]
            constructor
            · refine le_trans (updateJumper_mono _ _ _ ?_) hreach
              have := touched_pos invJs Hpos hi htouchJs
              linarith
            · intro hnone
              obtain ⟨_, hold⟩ := updateJumper_token_none _ _ _ hnone
              exact htouchJs hold
          · rw [getD_set_ne _ _ _ _ _ hie]
            exact ⟨hreach, htouchJs⟩
        · exact ⟨hreach, htouchJs⟩
      refine ⟨hfinal.2, ?_⟩
      intro q hq
      exact le_trans hfinal.1 (by
        have := hble q hq
        linarith)
    · -- fallback candidate, relaxed after the loop of iteration c
      have hlenfb : tk.text.length = 1 := by
        rw [hfb]
        simp [fallbackToken, Token.text]
      have hieq' : i = c := by omega
      subst hieq'
      unfold segmentStep
      rw [if_pos hfbAt]
      rw [getD_set_self _ _ _ _ (by rw [invJs.length_eq]; exact hi)]
      constructor
      · intro hnone
        obtain ⟨heq, hold⟩ := updateJumper_token_none _ _ _ hnone
        have hmin0 := invJs.blank _ hi hold
        unfold updateJumper at heq
        rw [if_pos (Or.inl hmin0)] at heq
        have := congrArg jumper.token heq
        rw [hold] at this
        simp at this
      · intro q hq
        have h1 := updateJumper_min_le
          ((relaxTokens sm text.length i (baseDistanceAt J i)
            (lookupAt d text i) J).getD i default) (baseDistanceAt J i)
          (fallbackToken (text.getD i default))
        have h2 := hble q hq
        have h3 : (fallbackToken (text.getD i default)).distance = tk.distance := by
          rw [hfb]
        refine le_trans h1 ?_
        rw [h3]
        linarith

/-- Master minimality invariant after `k` iterations. -/
theorem stepN_min (d : Dictionary) (text : List Text) (sm : Bool)
    (Hpos : ∀ t ∈ d.tokens, 0 < t.distance) (Hsm : sm = true → text.length ≠ 1) :
    ∀ k, k ≤ text.length → MinProp d text sm k (stepN d text sm k) := by
  intro k
  induction k with
  | zero =>
    intro _ i _ c tk hc _ _
    omega
  | succ k ih =>
    intro hk
    rw [stepN_succ]
    exact segmentStep_min (stepN_inv d text sm Hsm k (by omega)) (ih (by omega))
      Hpos (by omega) Hsm

/-- Claim C1 (amended): when every stored token's distance is strictly
positive (and the input is not a single atom in search mode), at termination
of the forward lattice loop each `jumpers[i].minDistance` is exactly the
minimum over all valid segmentations of `atoms[0..i]` into relaxed candidate
tokens (dictionary prefix matches minus the search-mode whole-span exclusion,
plus the conditionally added synthetic one-atom fallback tokens) of the sum
of those tokens' distances: it is achieved by some segmentation and is a
lower bound of all of them. -/
theorem runJumpers_shortest_path (d : Dictionary) (text : List Text) (sm : Bool)
    (Hpos : ∀ t ∈ d.tokens, 0 < t.distance)
    (Hsm : sm = true → text.length ≠ 1) :
    ∀ i, i < text.length →
      PathTo d text sm (i + 1)
          (((runJumpers d text sm).getD i default).minDistance) ∧
        ∀ q, PathTo d text sm (i + 1) q →
          ((runJumpers d text sm).getD i default).minDistance ≤ q := by
  intro i hi
  have inv := runJumpers_inv d text sm Hsm
  have hminp : MinProp d text sm text.length (runJumpers d text sm) := by
    rw [runJumpers_eq_stepN]
    exact stepN_min d text sm Hpos Hsm text.length (le_refl _)
  constructor
  · rcases Option.ne_none_iff_exists'.mp (inv.settled i hi) with ⟨tk, htk⟩
    exact inv.path_at hi htk
  · intro q hq
    obtain ⟨c', q', tk', hq', hcand', hsum', hqeq⟩ := PathTo.inv_succ hq (by omega)
    have hlen' := (isCandidate_spec hcand').1
    obtain ⟨_, hle⟩ := hminp i hi c' tk' (by omega) hcand' hsum'
    rw [hqeq]
    exact hle q' hq'

/-- Witness for `runJumpers_shortest_path`: the empty dictionary and a
one-atom input (the single valid segmentation is the fallback token of
distance 32). -/
theorem runJumpers_shortest_path_witness :
    (∀ t ∈ (⟨[], 0⟩ : Dictionary).tokens, 0 < t.distance) ∧
      (PathTo ⟨[], 0⟩ [[97]] false 1
          (((runJumpers ⟨[], 0⟩ [[97]] false).getD 0 default).minDistance) ∧
        ∀ q, PathTo ⟨[], 0⟩ [[97]] false 1 q →
          ((runJumpers ⟨[], 0⟩ [[97]] false).getD 0 default).minDistance ≤ q) :=
  ⟨by simp, runJumpers_shortest_path ⟨[], 0⟩ [[97]] false (by simp) (by simp) 0
    (by norm_num)⟩

/-- Token of the C1 counterexample: a two-atom dictionary token of distance
zero, exactly as produced by loading a dictionary whose only entry is this
token with frequency 4 (`distance = log2(4) - log2(4) = 0`). -/
def c1tok : Token := Token.mk [[97], [98]] 4 0 "" [] []

/-- Dictionary of the C1 counterexample. -/
def c1dict : Dictionary := ⟨[c1tok], 2⟩

/-- Claim C1 (as stated): with merely non-negative distances (all that a
loaded dictionary guarantees: a token whose frequency equals the total
frequency has distance zero), the shortest-path property fails.  On atoms
`a, b` with the single dictionary token `ab` of distance 0, the path `ab`
costs 0, but the zero sentinel of the relax rule makes iteration 1 overwrite
the optimal jumper: `jumpers[1].minDistance` ends at 64. -/
theorem claim_c1_counterexample :
    ¬ (∀ (d : Dictionary) (text : List Text) (sm : Bool),
        (∀ t ∈ d.tokens, 0 ≤ t.distance) → (sm = true → text.length ≠ 1) →
        ∀ i, i < text.length →
          PathTo d text sm (i + 1)
              (((runJumpers d text sm).getD i default).minDistance) ∧
            ∀ q, PathTo d text sm (i + 1) q →
              ((runJumpers d text sm).getD i default).minDistance ≤ q) := by
  intro h
  have hnn : ∀ t ∈ c1dict.tokens, 0 ≤ t.distance := by
    intro t ht
    rw [show c1dict.tokens = [c1tok] from rfl] at ht
    rw [List.mem_singleton.mp ht]
    norm_num [c1tok, Token.distance]
  have hpath : PathTo c1dict [[97], [98]] false 2 0 := by
    have hmem : c1tok ∈ lookupAt c1dict [[97], [98]] 0 := by
      rw [show lookupAt c1dict [[97], [98]] 0 = [c1tok] from rfl]
      exact List.mem_singleton.mpr rfl
    have hcand : isCandidate c1dict [[97], [98]] false 0 c1tok :=
      ⟨by norm_num, Or.inl ⟨hmem, by simp⟩⟩
    have h0 := PathTo.cons PathTo.nil hcand
    rw [show (0 : ℚ) + c1tok.distance = 0 from by norm_num [c1tok, Token.distance]]
      at h0
    exact h0
  have h2 := (h c1dict [[97], [98]] false hnn (by simp) 1 (by norm_num)).2 0 hpath
  rw [show ((runJumpers c1dict [[97], [98]] false).getD 1 default).minDistance = 64
    from by
      norm_num [runJumpers, segmentStep, lookupAt, relaxTokens, relaxOne,
        updateJumper, baseDistanceAt, fallbackAt, fallbackToken,
        Dictionary.lookupTokens, minInt, List.range_succ, default_jumper,
        Token.text, Token.distance, c1dict, c1tok]] at h2
  norm_num at h2

/-- Witness for `segmentWords_search_no_whole`: a one-atom input in search
mode yields the empty result. -/
theorem segmentWords_search_no_whole_witness :
    ([[97]] : List Text).length = 1 ∧ segmentWords ⟨[], 0⟩ [[97]] true = [] :=
  ⟨by decide, (segmentWords_search_no_whole ⟨[], 0⟩ [[97]]).2 (by decide)⟩
